import Mathlib

/-!
Verification of the site crawler and link-integrity checker of the
yourwebsquad-toolkit repository (scripts/jsonld-validate.mjs link-check
section, scripts/pa11y-crawl-and-test.mjs).

The development shallowly embeds the JavaScript source.  Pure functions
become Lean functions; the module-level mutable state of the scripts
(visited / toVisit sets, the link cache, the probe side effects of
`fetch`) becomes explicit state threading.  The network is modelled as a
deterministic environment function describing a fixed server behaviour,
passed as a parameter.

The platform `URL` class (WHATWG URL standard) is an external collaborator
of the scripts.  It is modelled below at the URL-record level
(scheme / host / port / path segments / query / fragment) with the
structure of the WHATWG basic URL parser: scheme and host lowercasing,
default-port elision, dot-segment resolution, path/query/fragment
splitting, opaque paths for non-special schemes, the pathname and hash
setters.  Host canonicalization beyond ASCII lowercasing (punycode, IPv4
normalization), percent-encoding, tab/newline stripping and the special
treatment of the file scheme are elided: they are identity-like
transformations orthogonal to the normalization logic under verification.
-/

namespace LinkCheck

/-! ### Character helpers -/

/-- ASCII lowercasing as performed by the URL parser on schemes and hosts. -/
def asciiLower (c : Char) : Char :=
  if 65 ≤ c.toNat ∧ c.toNat ≤ 90 then Char.ofNat (c.toNat + 32) else c

/-- ASCII alphabetic character (the scheme-start test of the URL parser). -/
def alphaChar (c : Char) : Bool :=
  (65 ≤ c.toNat && c.toNat ≤ 90) || (97 ≤ c.toNat && c.toNat ≤ 122)

/-- ASCII decimal digit. -/
def digitB (c : Char) : Bool :=
  48 ≤ c.toNat && c.toNat ≤ 57

/-- Characters allowed in a URL scheme after the first (ASCII alphanumeric
plus plus, minus, dot). -/
def schemeChar (c : Char) : Bool :=
  alphaChar c || digitB c || c = '+' || c = '-' || c = '.'

/-- Characters terminating the authority component. -/
def stopAuth (c : Char) : Bool :=
  c = '/' || c = '\\' || c = '?' || c = '#'

/-- Decimal digit character for a value below ten. -/
def digitChar (d : Nat) : Char := Char.ofNat (48 + d)

/-- Little-endian decimal digits of a natural number (empty for zero). -/
def natRevDigits (n : Nat) : List Char :=
  if h : n = 0 then [] else digitChar (n % 10) :: natRevDigits (n / 10)
decreasing_by exact Nat.div_lt_self (Nat.pos_of_ne_zero h) (by decide)

/-- Decimal rendering of a natural number as used by the URL serializer. -/
def natChars (n : Nat) : List Char :=
  if n = 0 then ['0'] else (natRevDigits n).reverse

/-- Numeric value of a big-endian list of decimal digit characters. -/
def digitsVal (l : List Char) : Nat :=
  l.foldl (fun v c => v * 10 + (c.toNat - 48)) 0

/-! ### The URL record -/

/-- A parsed URL, in the shape of a WHATWG URL record.  For special
(authority-carrying) schemes `path` holds the slash-separated segments and
`opaquePath` is unused (empty); for non-special schemes the path is kept
opaque in `opaquePath` and `host`, `port`, `path` are unused. -/
structure UrlRec where
  scheme : List Char
  host : List Char
  port : Option Nat
  path : List (List Char)
  rawPath : List Char
  isRaw : Bool
  query : Option (List Char)
  fragment : Option (List Char)
deriving DecidableEq, Repr

/-- The special schemes recognized by the model (the WHATWG list minus
`file`, which the toolkit never produces). -/
def specials : List (List Char) :=
  [['h','t','t','p'], ['h','t','t','p','s'], ['w','s'], ['w','s','s'], ['f','t','p']]

/-- Default port of a special scheme, elided from the record by the parser. -/
def defaultPort (scheme : List Char) : Option Nat :=
  if scheme = ['h','t','t','p'] then some 80
  else if scheme = ['h','t','t','p','s'] then some 443
  else if scheme = ['w','s'] then some 80
  else if scheme = ['w','s','s'] then some 443
  else if scheme = ['f','t','p'] then some 21
  else none

/-! ### Path parsing (WHATWG path state) -/

/-- Close the current path-state buffer: double-dot segments shorten the
path, single-dot segments are dropped, anything else is appended.  When the
buffer closes at end of input (`atSlash = false`) the dot cases append an
empty segment, per the path state of the basic URL parser. -/
def flushSeg (segs : List (List Char)) (buf : List Char) (atSlash : Bool) :
    List (List Char) :=
  if buf = ['.', '.'] then
    (if atSlash then segs.dropLast else segs.dropLast ++ [[]])
  else if buf = ['.'] then
    (if atSlash then segs else segs ++ [[]])
  else segs ++ [buf]

/-- WHATWG path state: accumulate segments, splitting at slashes
(backslashes are treated as slashes for special schemes). -/
def pathFold (segs : List (List Char)) (buf : List Char) :
    List Char → List (List Char)
  | [] => flushSeg segs buf false
  | c :: rest =>
    if c = '/' ∨ c = '\\' then pathFold (flushSeg segs buf true) [] rest
    else pathFold segs (buf ++ [c]) rest

/-- Parse a path portion starting at the path start state: an initial slash
is consumed, then the path state runs on the remainder.  The empty portion
yields the single empty segment (pathname `/`). -/
def parsePathPortion (s : List Char) : List (List Char) :=
  match s with
  | c :: rest => if c = '/' ∨ c = '\\' then pathFold [] [] rest else pathFold [] [] s
  | [] => pathFold [] [] []

/-! ### URL parsing -/

/-- Split off the fragment at the first hash character. -/
def splitFragment (l : List Char) : List Char × Option (List Char) :=
  (l.takeWhile (fun c => ¬ c = '#'),
   match l.dropWhile (fun c => ¬ c = '#') with
   | [] => none
   | _ :: f => some f)

/-- Split off the query at the first question mark. -/
def splitQuery (l : List Char) : List Char × Option (List Char) :=
  (l.takeWhile (fun c => ¬ c = '?'),
   match l.dropWhile (fun c => ¬ c = '?') with
   | [] => none
   | _ :: q => some q)

/-- Split a leading `scheme:` off a URL string: first character ASCII
alphabetic, then scheme characters up to a colon. -/
def takeScheme (l : List Char) : Option (List Char × List Char) :=
  match l with
  | [] => none
  | c :: _ =>
    if alphaChar c then
      match l.dropWhile schemeChar with
      | d :: rest => if d = ':' then some (l.takeWhile schemeChar, rest) else none
      | [] => none
    else none

/-- Parse the port part of an authority (everything after the first colon).
Returns `none` on an invalid port, `some p` with the elided-default port
otherwise. -/
def parsePort (scheme : List Char) (portPart : List Char) : Option (Option Nat) :=
  match portPart with
  | [] => some none
  | _ :: ds =>
    if ds = [] then some none
    else if ds.all digitB then
      let n := digitsVal ds
      if n ≤ 65535 then
        some (if defaultPort scheme = some n then none else some n)
      else none
    else none

/-- Characters that make the model reject an authority outright (userinfo
and IP-literal syntax are outside the model; space is a forbidden host code
point). -/
def badAuthChar (c : Char) : Bool :=
  c = '@' || c = '[' || c = ']' || c = ' '

/-- Model of the WHATWG basic URL parser on an absolute URL string
(the platform `new URL(s)`); `none` models the constructor throwing. -/
def parseUrlChars (l : List Char) : Option UrlRec :=
  match takeScheme l with
  | none => none
  | some (schemeRaw, rest) =>
    let scheme := schemeRaw.map asciiLower
    if scheme ∈ specials then
      let afterSlashes := rest.dropWhile (fun c => c = '/' ∨ c = '\\')
      let auth := afterSlashes.takeWhile (fun c => ¬ stopAuth c)
      let afterAuth := afterSlashes.dropWhile (fun c => ¬ stopAuth c)
      if auth.any badAuthChar then none
      else
        let hostRaw := auth.takeWhile (fun c => ¬ c = ':')
        let portPart := auth.dropWhile (fun c => ¬ c = ':')
        let host := hostRaw.map asciiLower
        if host = [] then none
        else
          match parsePort scheme portPart with
          | none => none
          | some port =>
            let (beforeFrag, frag) := splitFragment afterAuth
            let (pathPart, query) := splitQuery beforeFrag
            some { scheme := scheme, host := host, port := port,
                   path := parsePathPortion pathPart, rawPath := [],
                   isRaw := false, query := query, fragment := frag }
    else
      let (beforeFrag, frag) := splitFragment rest
      let (op, query) := splitQuery beforeFrag
      some { scheme := scheme, host := [], port := none, path := [],
             rawPath := op, isRaw := true, query := query, fragment := frag }

/-! ### URL serialization -/

/-- Optional component with its leading delimiter. -/
def optPart (pre : Char) : Option (List Char) → List Char
  | none => []
  | some s => pre :: s

/-- Serialized port (colon plus decimal digits, empty when elided). -/
def portChars : Option Nat → List Char
  | none => []
  | some n => ':' :: natChars n

/-- Serialized path of an authority URL: each segment prefixed by a slash. -/
def pathChars (path : List (List Char)) : List Char :=
  (path.map (fun seg => '/' :: seg)).flatten

/-- Model of the WHATWG URL serializer (the platform `url.toString()`). -/
def serializeChars (u : UrlRec) : List Char :=
  if u.isRaw then
    u.scheme ++ ':' :: u.rawPath ++ optPart '?' u.query ++ optPart '#' u.fragment
  else
    u.scheme ++ ':' :: '/' :: '/' :: u.host ++ portChars u.port ++
      pathChars u.path ++ optPart '?' u.query ++ optPart '#' u.fragment

/-! ### The pathname getter / setter and the source's normalizeUrl -/

/-- The platform `url.pathname` getter. -/
def UrlRec.pathnameChars (u : UrlRec) : List Char :=
  if u.isRaw then u.rawPath else pathChars u.path

/-- The platform `url.pathname` setter: a no-op on opaque paths, otherwise
the path is emptied and the value re-parsed from the path start state. -/
def UrlRec.setPath (u : UrlRec) (s : List Char) : UrlRec :=
  if u.isRaw then u else { u with path := parsePathPortion s }

/-- Drop every trailing slash, as `pathname.replace` with the pattern
"one or more slashes at the end" and an empty replacement does. -/
def stripTrailing (p : List Char) : List Char :=
  (p.reverse.dropWhile (fun c => c = '/')).reverse

/-- The record-level body of the source's `normalizeUrl` (both scripts,
identical code): clear the fragment via the hash setter, then, if the
pathname is longer than one character and ends in a slash, strip trailing
slashes through the pathname setter. -/
def normRec (u : UrlRec) : UrlRec :=
  let u1 : UrlRec := { u with fragment := none }
  let p := u1.pathnameChars
  if 1 < p.length ∧ p.getLast? = some '/' then u1.setPath (stripTrailing p)
  else u1

/-- `normalizeUrl` from scripts/jsonld-validate.mjs and
scripts/pa11y-crawl-and-test.mjs: parse, clear the hash, strip trailing
slashes from a non-root pathname, reserialize; return the input unchanged
when parsing throws. -/
def normalizeUrl (s : String) : String :=
  match parseUrlChars s.toList with
  | none => s
  | some u => String.mk (serializeChars (normRec u))

/-- Model of JavaScript `String.prototype.startsWith`. -/
def strStartsWith (s pre : String) : Bool :=
  pre.toList.isPrefixOf s.toList

/-- `isInternal` from both scripts: prefix test on normalized forms.  The
scripts read the base URL from module scope; the model passes it
explicitly. -/
def isInternal (baseUrl url : String) : Bool :=
  strStartsWith (normalizeUrl url) (normalizeUrl baseUrl)

/-! ### Relative resolution (the platform two-argument `new URL(input, base)`) -/

/-- Split a relative reference into path portion, query and fragment. -/
def splitInputParts (l : List Char) : List Char × Option (List Char) × Option (List Char) :=
  let (beforeFrag, frag) := splitFragment l
  let (p, q) := splitQuery beforeFrag
  (p, q, frag)

/-- Model of the two-argument WHATWG constructor `new URL(input, base)`:
an absolute input ignores the base; otherwise the input is resolved
against the parsed base per the relative states of the basic URL parser
(protocol-relative, absolute-path, query-only, fragment-only and
merged-path references).  `none` models the constructor throwing. -/
def resolveUrlChars (input base : List Char) : Option UrlRec :=
  match parseUrlChars input with
  | some u => some u
  | none =>
    match parseUrlChars base with
    | none => none
    | some b =>
      if b.isRaw then
        match input with
        | '#' :: f => some { b with fragment := some f }
        | _ => none
      else
        match input with
        | [] => some { b with fragment := none }
        | '#' :: f => some { b with fragment := some f }
        | '?' :: q =>
          let (q', f') := splitFragment q
          some { b with query := some q', fragment := f' }
        | c :: c2 :: rest =>
          if (c = '/' ∨ c = '\\') ∧ (c2 = '/' ∨ c2 = '\\') then
            parseUrlChars (b.scheme ++ ':' :: c :: c2 :: rest)
          else if c = '/' ∨ c = '\\' then
            let (p, q, f) := splitInputParts (c2 :: rest)
            some { b with path := parsePathPortion p, query := q, fragment := f }
          else
            let (p, q, f) := splitInputParts input
            some { b with path := pathFold b.path.dropLast [] p, query := q, fragment := f }
        | [c] =>
          if c = '/' ∨ c = '\\' then
            some { b with path := parsePathPortion [], query := none, fragment := none }
          else
            some { b with path := pathFold b.path.dropLast [] [c], query := none,
                          fragment := none }

/-- String-level resolution: the serialization of the resolved URL, as the
scripts' `new URL(href, url).toString()`. -/
def resolveUrl (input base : String) : Option String :=
  (resolveUrlChars input.toList base.toList).map (fun u => String.mk (serializeChars u))

/-! ### The crawler (function `crawl` of both scripts) -/

/-- A fetched page as the crawler sees it: its content-type header and the
href attributes of its anchors in document order.  HTML parsing and
anchor selection are external collaborators; the model starts from the
extracted href list. -/
structure CrawlPage where
  contentType : String
  hrefs : List String
deriving DecidableEq, Repr

/-- The crawl network environment: `none` models `fetch` rejecting for that
URL. -/
def CrawlNet := String → Option CrawlPage

/-- Substring test on char lists, modelling `String.prototype.includes`. -/
def containsSub (needle hay : List Char) : Bool :=
  hay.tails.any (fun t => needle.isPrefixOf t)

/-- The anchor-processing body of the crawl loop: skip empty, mailto, tel
and pure-fragment hrefs; take the href itself when it starts with "http",
otherwise resolve it against the current page (a throw drops the href);
skip external targets; otherwise yield the normalized URL. -/
def crawlHref (baseUrl pageUrl href : String) : Option String :=
  if href = "" then none
  else if strStartsWith href "mailto:" || strStartsWith href "tel:" ||
      strStartsWith href "#" then none
  else
    match (if strStartsWith href "http" then some href else resolveUrl href pageUrl) with
    | none => none
    | some absolute =>
      if ¬ isInternal baseUrl absolute then none
      else some (normalizeUrl absolute)

/-- Enqueue the candidate targets of a page: a normalized URL is appended
to the frontier only when it is in neither the visited set nor the
frontier (`toVisit.add` guarded by the two `has` tests, threaded through
the anchors in document order). -/
def enqueueHrefs (baseUrl pageUrl : String) (vis : List String)
    (tv : List String) (hrefs : List String) : List String :=
  hrefs.foldl (fun tv href =>
    match crawlHref baseUrl pageUrl href with
    | none => tv
    | some normalized =>
      if normalized ∈ vis ∨ normalized ∈ tv then tv else tv ++ [normalized]) tv

/-- The crawl work loop.  `toVisit` and `visited` are JavaScript `Set`s,
modelled as duplicate-free lists in insertion order; `const [url] =
toVisit` takes the first element.  A fetch failure or a non-HTML
content-type leaves the page visited without extraction.  The `fuel`
parameter bounds the number of iterations of the source's unbounded
`while` loop; every claim is stated for an arbitrary fuel. -/
def crawlLoop (net : CrawlNet) (baseUrl : String) :
    Nat → List String → List String → List String
  | 0, _, vis => vis
  | fuel + 1, tv, vis =>
    match tv with
    | [] => vis
    | url :: tvRest =>
      let vis' := vis ++ [url]
      match net url with
      | none => crawlLoop net baseUrl fuel tvRest vis'
      | some page =>
        if containsSub "text/html".toList page.contentType.toList then
          crawlLoop net baseUrl fuel
            (enqueueHrefs baseUrl url vis' tvRest page.hrefs) vis'
        else crawlLoop net baseUrl fuel tvRest vis'

/-- Lexicographic comparison of char lists by code point, the comparison
`Array.prototype.sort` applies to its elements as strings (code-unit
order; URLs here are ASCII, where code units and code points agree). -/
def charsLe : List Char → List Char → Bool
  | [], _ => true
  | _ :: _, [] => false
  | a :: as, b :: bs =>
    if a.toNat < b.toNat then true
    else if a.toNat = b.toNat then charsLe as bs
    else false

/-- The string comparison of the default `sort()`. -/
def strLe (a b : String) : Bool :=
  charsLe a.toList b.toList

/-- `crawl()`: seed the frontier with the base URL, run the loop, return
the visited set sorted (`Array.from(visited).sort()`). -/
def crawl (net : CrawlNet) (baseUrl : String) (fuel : Nat) : List String :=
  (crawlLoop net baseUrl fuel [baseUrl] []).insertionSort (fun a b => strLe a b = true)

/-! ### The Resource Checker (`checkLink` / `fetchWithTimeout`) -/

/-- HTTP method of a probe. -/
inductive Method where
  | head
  | get
deriving DecidableEq, Repr

/-- A fetch response: final status code after redirects and final URL.
`ok` is the platform-derived flag (status in the 200 range). -/
structure FetchResponse where
  status : Nat
  url : String
deriving DecidableEq, Repr

/-- `Response.ok` of the fetch API. -/
def FetchResponse.ok (r : FetchResponse) : Bool :=
  200 ≤ r.status && r.status < 300

/-- Outcome of one `fetchWithTimeout` call: a response, or a rejection
(network error / abort on timeout) with its error message. -/
inductive FetchOutcome where
  | success (r : FetchResponse)
  | failure (msg : String)
deriving DecidableEq, Repr

/-- The link-check network environment: behaviour of each URL for each
method.  Determinism models a fixed server; the run probes each URL at
most once anyway, which is exactly claim C3. -/
def Net := String → Method → FetchOutcome

/-- A CheckResult as built by `checkLink`.  Absent JavaScript fields are
modelled by defaults: `skipped` is only set on the skip record (absent
means falsy), `error` and `finalUrl` are optional. -/
structure CheckResult where
  url : String
  ok : Bool
  status : Nat
  isExternal : Bool
  skipped : Bool := false
  error : Option String := none
  finalUrl : Option String := none
deriving DecidableEq, Repr

/-- Association-list lookup with decidable string equality (the model of
`Map.get` / `Map.has` on the link cache keyed by normalized URL). -/
def alookup {β : Type} (k : String) : List (String × β) → Option β
  | [] => none
  | (k', v) :: rest => if k' = k then some v else alookup k rest

/-- The checker state: the module-level `linkCache` plus the log of network
probes actually issued (url, method), in order. -/
structure CheckState where
  cache : List (String × CheckResult)
  log : List (String × Method)
deriving DecidableEq, Repr

/-- The HEAD-then-maybe-GET fetch phase of `checkLink` (lines 482-493):
`res` is assigned the HEAD response; when that response has `!ok` and
status at least 400 a GET is tried, whose rejection leaves `res` at the
HEAD response while setting `error`; a HEAD rejection leaves `res` unset.
Returns (`res`, `error`, probes issued). -/
def fetchPhase (net : Net) (nu : String) :
    Option FetchResponse × Option String × List (String × Method) :=
  match net nu .head with
  | .failure e => (none, some e, [(nu, .head)])
  | .success r =>
    if !r.ok && decide (400 ≤ r.status) then
      match net nu .get with
      | .failure e => (some r, some e, [(nu, .head), (nu, .get)])
      | .success r2 => (some r2, none, [(nu, .head), (nu, .get)])
    else (some r, none, [(nu, .head)])

/-- `err?.message || "Request failed"`: an empty message is falsy. -/
def errMessage (e : Option String) : String :=
  match e with
  | none => "Request failed"
  | some m => if m = "" then "Request failed" else m

/-- `checkLink(url, isExternal)`: normalize, consult the cache, short-cut
external links when external checking is disabled, otherwise run the fetch
phase and cache the resulting CheckResult. -/
def checkLink (net : Net) (checkExternal : Bool) (st : CheckState)
    (url : String) (isExternal : Bool) : CheckResult × CheckState :=
  let normalized := normalizeUrl url
  match alookup normalized st.cache with
  | some r => (r, st)
  | none =>
    if isExternal && !checkExternal then
      let skipped : CheckResult :=
        { url := normalized, ok := true, skipped := true,
          isExternal := isExternal, status := 0 }
      (skipped, { st with cache := (normalized, skipped) :: st.cache })
    else
      match fetchPhase net normalized with
      | (none, err, probes) =>
        let result : CheckResult :=
          { url := normalized, ok := false, status := 0,
            error := some (errMessage err), isExternal := isExternal }
        (result, { cache := (normalized, result) :: st.cache,
                   log := st.log ++ probes })
      | (some r, _, probes) =>
        let result : CheckResult :=
          { url := normalized, ok := r.ok, status := r.status,
            isExternal := isExternal, finalUrl := some r.url }
        (result, { cache := (normalized, result) :: st.cache,
                   log := st.log ++ probes })

/-! ### The Audit Aggregator (function `main` of the link-check script) -/

/-- An extracted link before checking: its normalized target and external
tag.  The selector and visible-text fields built alongside in the source
are reporting-only strings with no effect on any checked property and are
elided from the model. -/
structure LinkIn where
  linkUrl : String
  isExternal : Bool
deriving DecidableEq, Repr

/-- An evaluated link record, the object spread of an extracted link and
its CheckResult (the CheckResult's `url` and `isExternal` fields win the
spread).  Synthetic page-failure links leave `url` empty, `skipped` false
and `finalUrl` absent, matching the truthiness of the missing JavaScript
fields. -/
structure LinkOut where
  linkUrl : String
  isExternal : Bool
  url : String
  ok : Bool
  status : Nat
  skipped : Bool
  error : Option String
  finalUrl : Option String
deriving DecidableEq, Repr

/-- The CheckResult carried by an evaluated link (the fields the spread
copied from the checker's result). -/
def LinkOut.result (l : LinkOut) : CheckResult :=
  { url := l.url, ok := l.ok, status := l.status, isExternal := l.isExternal,
    skipped := l.skipped, error := l.error, finalUrl := l.finalUrl }

/-- Spread of an extracted link and a CheckResult into an evaluated link. -/
def mkLinkOut (l : LinkIn) (r : CheckResult) : LinkOut :=
  { linkUrl := l.linkUrl, isExternal := r.isExternal, url := r.url,
    ok := r.ok, status := r.status, skipped := r.skipped, error := r.error,
    finalUrl := r.finalUrl }

/-- The synthetic record pushed when the audited page itself fails to
fetch: a single broken link pointing at the page, carrying the fetch error
message, tagged internal. -/
def syntheticLink (pageUrl msg : String) : LinkOut :=
  { linkUrl := pageUrl, isExternal := false, url := "", ok := false,
    status := 0, skipped := false, error := some msg, finalUrl := none }

/-- One audited page and its evaluated links. -/
structure PageRecord where
  url : String
  links : List LinkOut
deriving DecidableEq, Repr

/-- One entry of the flat broken-links list (selector and text elided as
reporting-only). -/
structure BrokenEntry where
  pageUrl : String
  linkUrl : String
  status : Nat
  error : Option String
  isExternal : Bool
deriving DecidableEq, Repr

/-- Projection of an evaluated link on a page into a broken-list entry. -/
def mkBroken (pageUrl : String) (l : LinkOut) : BrokenEntry :=
  { pageUrl := pageUrl, linkUrl := l.linkUrl, status := l.status,
    error := l.error, isExternal := l.isExternal }

/-- The page-fetch environment of the aggregator: for each page URL either
the href attributes of its anchors (fetch plus HTML parse succeed; `main`
does not inspect the content-type) or the fetch rejection's message. -/
def PageNet := String → Except String (List String)

/-- The per-anchor extraction body of `main` (lines 764-781): the same
scheme and fragment exclusions as the crawler, "http"-prefixed hrefs taken
as-is, the rest resolved against the page (a throw drops the anchor), the
target normalized and tagged external by `isInternal` on the normalized
form. -/
def extractLink1 (baseUrl pageUrl href : String) : Option LinkIn :=
  if href = "" then none
  else if strStartsWith href "mailto:" || strStartsWith href "tel:" ||
      strStartsWith href "#" then none
  else
    match (if strStartsWith href "http" then some href else resolveUrl href pageUrl) with
    | none => none
    | some absolute =>
      let normalized := normalizeUrl absolute
      some { linkUrl := normalized, isExternal := ¬ isInternal baseUrl normalized }

/-- All links extracted from one page, in document order. -/
def extractLinks (baseUrl pageUrl : String) (hrefs : List String) : List LinkIn :=
  hrefs.filterMap (extractLink1 baseUrl pageUrl)

/-- First-occurrence deduplication, modelling
`Array.from(new Set(links.map(l => l.linkUrl)))`: a JavaScript `Set` keeps
insertion order and drops later duplicates. -/
def uniqFirst (l : List String) : List String :=
  l.foldl (fun acc x => if x ∈ acc then acc else acc ++ [x]) []

/-- One iteration of the unique-URL check loop (lines 785-789): the first
link referencing the URL supplies the `isExternal` flag, the checker runs,
and the result is recorded in `resultsByUrl`. -/
def resolveStep (net : Net) (checkExternal : Bool) (links : List LinkIn)
    (acc : List (String × CheckResult) × CheckState) (url : String) :
    List (String × CheckResult) × CheckState :=
  let sample := links.find? (fun l => l.linkUrl = url)
  let r := checkLink net checkExternal acc.2 url
    ((sample.map (fun l => l.isExternal)).getD false)
  (acc.1 ++ [(url, r.1)], r.2)

/-- Resolve every distinct target URL of a page through the Resource
Checker (lines 783-789). -/
def resolveResults (net : Net) (checkExternal : Bool) (st : CheckState)
    (links : List LinkIn) : List (String × CheckResult) × CheckState :=
  (uniqFirst (links.map (fun l => l.linkUrl))).foldl
    (resolveStep net checkExternal links) ([], st)

/-- Placeholder for `Map.get` on a key that is always present. -/
def dummyResult : CheckResult :=
  { url := "", ok := false, status := 0, isExternal := false }

/-- Process one page of the audit (the body of the `for (const pageUrl of
pages)` loop): on fetch failure push the synthetic self-link record;
otherwise extract, check the unique targets, attach each link its result
and count the skipped ones. -/
def stepPage (net : Net) (pageNet : PageNet) (checkExternal : Bool)
    (baseUrl : String) (acc : List PageRecord × Nat × CheckState)
    (pageUrl : String) : List PageRecord × Nat × CheckState :=
  match pageNet pageUrl with
  | .error e =>
    (acc.1 ++ [{ url := pageUrl, links := [syntheticLink pageUrl e] }],
     acc.2.1, acc.2.2)
  | .ok hrefs =>
    let links := extractLinks baseUrl pageUrl hrefs
    let rr := resolveResults net checkExternal acc.2.2 links
    let evaluated := links.map
      (fun l => mkLinkOut l ((alookup l.linkUrl rr.1).getD dummyResult))
    (acc.1 ++ [{ url := pageUrl, links := evaluated }],
     acc.2.1 + evaluated.countP (fun l => l.skipped), rr.2)

/-- The whole-run report: page records, derived broken list, the
skipped-external counter, the process exit code and, for auditability, the
final checker state. -/
structure RunReport where
  pages : List PageRecord
  broken : List BrokenEntry
  skippedExternal : Nat
  exitCode : Nat
  state : CheckState
deriving DecidableEq, Repr

/-- `main` of the link-check script, from the point where the page list is
fixed (URL file, sitemap or crawl — supplied here as `pages`): the page
loop, the broken-links aggregation (not ok and not skipped) and the exit
code (1 iff any broken link). -/
def runAudit (net : Net) (pageNet : PageNet) (checkExternal : Bool)
    (baseUrl : String) (pages : List String) : RunReport :=
  let res := pages.foldl (stepPage net pageNet checkExternal baseUrl)
    ([], 0, ⟨[], []⟩)
  let broken := (res.1.map (fun page =>
    (page.links.filter (fun l => !l.ok && !l.skipped)).map (mkBroken page.url))).flatten
  { pages := res.1, broken := broken, skippedExternal := res.2.1,
    exitCode := if broken.length > 0 then 1 else 0, state := res.2.2 }

/-! ### Run invariants of the checker and the aggregator -/

/-- The first component grows monotonically: existing cache entries are
never overwritten (the cache is written once per key). -/
def cacheSub (c1 c2 : List (String × CheckResult)) : Prop :=
  ∀ k r, alookup k c1 = some r → alookup k c2 = some r

/-- Number of HEAD probes for a given URL in the probe log. -/
def countHead (log : List (String × Method)) (u : String) : Nat :=
  log.countP (fun e => decide (e.1 = u) && decide (e.2 = Method.head))

/-- The probe-count invariant: each URL has been HEAD-probed at most once,
and never without leaving a cache entry behind. -/
def ProbeInv (st : CheckState) : Prop :=
  ∀ u, countHead st.log u ≤ 1 ∧
    (alookup u st.cache = none → countHead st.log u = 0)

/-- The external-skip invariant (external checking disabled): every cached
record flagged external is the skip record, and every probed URL has a
cached record flagged internal. -/
def ExtInv (st : CheckState) : Prop :=
  (∀ k r, alookup k st.cache = some r → r.isExternal = true →
    r.ok = true ∧ r.skipped = true ∧ r.status = 0) ∧
  (∀ k m, (k, m) ∈ st.log → ∃ r, alookup k st.cache = some r ∧
    r.isExternal = false)

/-- Invariant of the page loop: results recorded on fetched pages agree
with the cache, external-tagged links always agree with the cache, and the
skipped counter equals the number of skipped link occurrences recorded so
far. -/
def AuditInv (pageNet : PageNet) (acc : List PageRecord × Nat × CheckState) : Prop :=
  (∀ rec ∈ acc.1, (∃ hs, pageNet rec.url = Except.ok hs) →
    ∀ l ∈ rec.links, alookup l.linkUrl acc.2.2.cache = some l.result) ∧
  (∀ rec ∈ acc.1, ∀ l ∈ rec.links, l.isExternal = true →
    alookup l.linkUrl acc.2.2.cache = some l.result) ∧
  acc.2.1 = (acc.1.map (fun rec => rec.links.countP (fun l => l.skipped))).sum

/-! ### Well-formedness of URL records -/

/-- Well-formed scheme: nonempty, leading ASCII letter, scheme characters
throughout, already lowercase. -/
def schemeWF (s : List Char) : Bool :=
  (match s with | [] => false | c :: _ => alphaChar c) &&
  s.all (fun c => schemeChar c && asciiLower c = c)

/-- A character admissible inside a parsed host. -/
def hostChar (c : Char) : Bool :=
  !stopAuth c && ¬ c = ':' && !badAuthChar c

/-- A well-formed parsed path segment: no separators or component
delimiters, and not a dot segment. -/
def segOK (s : List Char) : Bool :=
  s.all (fun c => !stopAuth c) && ¬ s = ['.'] && ¬ s = ['.', '.']

/-- Well-formed elided-default port. -/
def portWF (scheme : List Char) : Option Nat → Bool
  | none => true
  | some n => decide (n ≤ 65535) && ¬ defaultPort scheme = some n

/-- The serialized path of a nonempty list of segments, without its leading
slash. -/
def restChars : List (List Char) → List Char
  | [] => []
  | p :: ps => p ++ pathChars ps

/-- Drop the trailing empty segments of a path. -/
def dropTrailingEmpties (segs : List (List Char)) : List (List Char) :=
  (segs.reverse.dropWhile (fun s => s.isEmpty)).reverse

/-- Canonical form of a URL record, as established by the parser and
preserved by the normalizer: the records whose serialization re-parses to
themselves. -/
def UrlRec.WF (u : UrlRec) : Prop :=
  schemeWF u.scheme = true ∧
  (u.isRaw = true →
    u.scheme ∉ specials ∧ (∀ c ∈ u.rawPath, ¬ c = '?' ∧ ¬ c = '#') ∧
    u.host = [] ∧ u.port = none ∧ u.path = []) ∧
  (u.isRaw = false →
    u.scheme ∈ specials ∧ ¬ u.host = [] ∧
    (∀ c ∈ u.host, hostChar c = true ∧ asciiLower c = c) ∧
    portWF u.scheme u.port = true ∧ ¬ u.path = [] ∧
    (∀ s ∈ u.path, segOK s = true) ∧ u.rawPath = []) ∧
  (∀ q, u.query = some q → ∀ c ∈ q, ¬ c = '#')


/-! ### Concrete environments for instance theorems -/

/-- The empty checker state: fresh cache and probe log. -/
def emptyState : CheckState := ⟨[], []⟩

/-- A server whose HEAD handler drops the connection while its GET handler
answers 200. -/
def netHeadFails : Net := fun _ m =>
  match m with
  | .head => .failure "socket hang up"
  | .get => .success ⟨200, "http://x.example/"⟩

/-- A server answering 405 Method Not Allowed to HEAD and 200 to GET. -/
def net405 : Net := fun u m =>
  match m with
  | .head => .success ⟨405, u⟩
  | .get => .success ⟨200, u⟩

/-- A server answering 200 to every probe. -/
def netOk : Net := fun u _ => .success ⟨200, u⟩

/-- A server rejecting every probe. -/
def netC7 : Net := fun _ _ => .failure "fetch failed"

/-- A two-page site whose root is addressed by a trailing-slash variant:
the page at the raw base URL links to the normalized form of that same
URL. -/
def netSlash : CrawlNet := fun u =>
  if u = "http://s.example/a/" then some ⟨"text/html", ["http://s.example/a"]⟩
  else if u = "http://s.example/a" then some ⟨"text/html", []⟩
  else none

/-- A two-page site referencing one page under two spellings (with and
without the trailing slash). -/
def netC2w : CrawlNet := fun u =>
  if u = "http://s.example/" then
    some ⟨"text/html", ["http://s.example/b", "http://s.example/b/"]⟩
  else if u = "http://s.example/b" then some ⟨"text/html", []⟩
  else none

/-- Every audited page carries one anchor to the same internal target. -/
def pnC3 : PageNet := fun _ => .ok ["http://s.example/t"]

/-- Every audited page carries one anchor whose href is an unparsable
"http"-prefixed string. -/
def pnC7 : PageNet := fun _ => .ok ["http://bad host/x"]

/-- Every page fetch is refused. -/
def pnC8 : PageNet := fun _ => .error "ECONNREFUSED"

end LinkCheck

namespace LinkCheck

/-! ### Character and digit lemmas -/

theorem char_toNat_ofNat (n : Nat) (h : n.isValidChar) :
    (Char.ofNat n).toNat = n := by
  unfold Char.ofNat
  rw [dif_pos h]
  rfl

theorem asciiLower_toNat (c : Char) (h : 65 ≤ c.toNat ∧ c.toNat ≤ 90) :
    (asciiLower c).toNat = c.toNat + 32 := by
  unfold asciiLower
  rw [if_pos h]
  apply char_toNat_ofNat
  exact Or.inl (by omega)

theorem asciiLower_eq_of_not (c : Char) (h : ¬(65 ≤ c.toNat ∧ c.toNat ≤ 90)) :
    asciiLower c = c := by
  unfold asciiLower
  rw [if_neg h]

theorem asciiLower_cases (c : Char) :
    (asciiLower c).toNat = c.toNat + 32 ∧ 65 ≤ c.toNat ∧ c.toNat ≤ 90 ∨
    asciiLower c = c ∧ ¬(65 ≤ c.toNat ∧ c.toNat ≤ 90) := by
  by_cases h : 65 ≤ c.toNat ∧ c.toNat ≤ 90
  · exact Or.inl ⟨asciiLower_toNat c h, h⟩
  · exact Or.inr ⟨asciiLower_eq_of_not c h, h⟩

theorem asciiLower_idem (c : Char) :
    asciiLower (asciiLower c) = asciiLower c := by
  rcases asciiLower_cases c with ⟨h1, h2⟩ | ⟨h1, _⟩
  · exact asciiLower_eq_of_not _ (by omega)
  · rw [h1, h1]

/-- Character equality is equivalent to equality of code points. -/
theorem char_eq_iff_toNat (c d : Char) : c = d ↔ c.toNat = d.toNat := by
  constructor
  · intro h; rw [h]
  · intro h
    have h2 := Char.ofNat_toNat c
    rw [h, Char.ofNat_toNat d] at h2
    exact h2.symm

theorem alphaChar_iff (c : Char) :
    alphaChar c = true ↔ 65 ≤ c.toNat ∧ c.toNat ≤ 90 ∨ 97 ≤ c.toNat ∧ c.toNat ≤ 122 := by
  unfold alphaChar
  simp

theorem digitB_iff (c : Char) :
    digitB c = true ↔ 48 ≤ c.toNat ∧ c.toNat ≤ 57 := by
  unfold digitB
  simp

theorem stopAuth_iff (c : Char) :
    stopAuth c = true ↔
      c.toNat = 47 ∨ c.toNat = 92 ∨ c.toNat = 63 ∨ c.toNat = 35 := by
  unfold stopAuth
  simp [char_eq_iff_toNat]
  tauto

theorem badAuthChar_iff (c : Char) :
    badAuthChar c = true ↔
      c.toNat = 64 ∨ c.toNat = 91 ∨ c.toNat = 93 ∨ c.toNat = 32 := by
  unfold badAuthChar
  simp [char_eq_iff_toNat]
  tauto

theorem hostChar_iff (c : Char) :
    hostChar c = true ↔
      ¬ c.toNat = 47 ∧ ¬ c.toNat = 92 ∧ ¬ c.toNat = 63 ∧ ¬ c.toNat = 35 ∧
      ¬ c.toNat = 58 ∧ ¬ c.toNat = 64 ∧ ¬ c.toNat = 91 ∧ ¬ c.toNat = 93 ∧
      ¬ c.toNat = 32 := by
  unfold hostChar stopAuth badAuthChar
  simp [char_eq_iff_toNat]
  tauto

theorem schemeChar_iff (c : Char) :
    schemeChar c = true ↔
      65 ≤ c.toNat ∧ c.toNat ≤ 90 ∨ 97 ≤ c.toNat ∧ c.toNat ≤ 122 ∨
      48 ≤ c.toNat ∧ c.toNat ≤ 57 ∨ c.toNat = 43 ∨ c.toNat = 45 ∨
      c.toNat = 46 := by
  unfold schemeChar alphaChar digitB
  simp [char_eq_iff_toNat]
  tauto

theorem schemeChar_asciiLower (c : Char) (h : schemeChar c = true) :
    schemeChar (asciiLower c) = true := by
  rw [schemeChar_iff] at h ⊢
  rcases asciiLower_cases c with ⟨h1, h2⟩ | ⟨h1, _⟩
  · omega
  · rw [h1]; exact h

theorem alphaChar_asciiLower (c : Char) (h : alphaChar c = true) :
    alphaChar (asciiLower c) = true := by
  rw [alphaChar_iff] at h ⊢
  rcases asciiLower_cases c with ⟨h1, h2⟩ | ⟨h1, _⟩
  · omega
  · rw [h1]; exact h

theorem hostChar_asciiLower (c : Char) (h : hostChar c = true) :
    hostChar (asciiLower c) = true := by
  rw [hostChar_iff] at h ⊢
  rcases asciiLower_cases c with ⟨h1, h2⟩ | ⟨h1, _⟩
  · omega
  · rw [h1]; exact h

theorem digitB_not_stopAuth (c : Char) (h : digitB c = true) :
    stopAuth c = false := by
  rw [digitB_iff] at h
  rw [Bool.eq_false_iff, Ne, stopAuth_iff]
  omega

theorem digitB_not_bad (c : Char) (h : digitB c = true) :
    badAuthChar c = false := by
  rw [digitB_iff] at h
  rw [Bool.eq_false_iff, Ne, badAuthChar_iff]
  omega

theorem digitB_ne_colon (c : Char) (h : digitB c = true) : ¬ c = ':' := by
  rw [digitB_iff] at h
  rw [char_eq_iff_toNat]
  have : (':' : Char).toNat = 58 := by decide
  omega

theorem hostChar_not_stopAuth (c : Char) (h : hostChar c = true) :
    stopAuth c = false := by
  rw [hostChar_iff] at h
  rw [Bool.eq_false_iff, Ne, stopAuth_iff]
  omega

theorem hostChar_ne_colon (c : Char) (h : hostChar c = true) : ¬ c = ':' := by
  rw [hostChar_iff] at h
  rw [char_eq_iff_toNat]
  have : (':' : Char).toNat = 58 := by decide
  omega

theorem hostChar_not_bad (c : Char) (h : hostChar c = true) :
    badAuthChar c = false := by
  rw [hostChar_iff] at h
  rw [Bool.eq_false_iff, Ne, badAuthChar_iff]
  omega

theorem hostChar_not_slash (c : Char) (h : hostChar c = true) :
    ¬ (c = '/' ∨ c = '\\') := by
  rw [hostChar_iff] at h
  rw [char_eq_iff_toNat, char_eq_iff_toNat]
  have h1 : ('/' : Char).toNat = 47 := by decide
  have h2 : ('\\' : Char).toNat = 92 := by decide
  omega

/-! ### Digit rendering round trip -/

theorem digitChar_toNat (d : Nat) (h : d < 10) : (digitChar d).toNat = 48 + d := by
  unfold digitChar
  apply char_toNat_ofNat
  exact Or.inl (by omega)

theorem digitB_digitChar (d : Nat) (h : d < 10) : digitB (digitChar d) = true := by
  rw [digitB_iff, digitChar_toNat d h]
  omega

theorem natRevDigits_digits (n : Nat) : ∀ c ∈ natRevDigits n, digitB c = true := by
  induction n using Nat.strongRecOn with
  | _ n ih =>
    intro c hc
    rw [natRevDigits] at hc
    by_cases h : n = 0
    · rw [dif_pos h] at hc; cases hc
    · rw [dif_neg h] at hc
      rcases List.mem_cons.mp hc with h1 | h1
      · rw [h1]; exact digitB_digitChar _ (Nat.mod_lt _ (by omega))
      · exact ih (n / 10) (Nat.div_lt_self (Nat.pos_of_ne_zero h) (by omega)) c h1

theorem natChars_digits (n : Nat) : ∀ c ∈ natChars n, digitB c = true := by
  unfold natChars
  by_cases h : n = 0
  · rw [if_pos h]
    intro c hc
    rcases List.mem_singleton.mp hc with h1
    rw [h1]
    decide
  · rw [if_neg h]
    intro c hc
    exact natRevDigits_digits n c (List.mem_reverse.mp hc)

theorem natChars_ne_nil (n : Nat) : ¬ natChars n = [] := by
  unfold natChars
  by_cases h : n = 0
  · rw [if_pos h]; simp
  · rw [if_neg h]
    rw [natRevDigits, dif_neg h]
    simp

theorem digitsVal_append (l : List Char) (c : Char) :
    digitsVal (l ++ [c]) = digitsVal l * 10 + (c.toNat - 48) := by
  unfold digitsVal
  rw [List.foldl_append]
  rfl

theorem digitsVal_natRevDigits (n : Nat) :
    digitsVal (natRevDigits n).reverse = n := by
  induction n using Nat.strongRecOn with
  | _ n ih =>
    by_cases h : n = 0
    · subst h
      rw [natRevDigits, dif_pos rfl]
      rfl
    · rw [natRevDigits, dif_neg h]
      simp only [List.reverse_cons]
      rw [digitsVal_append, ih (n / 10) (Nat.div_lt_self (Nat.pos_of_ne_zero h) (by omega))]
      rw [digitChar_toNat _ (Nat.mod_lt _ (by omega))]
      omega

theorem digitsVal_natChars (n : Nat) : digitsVal (natChars n) = n := by
  unfold natChars
  by_cases h : n = 0
  · rw [if_pos h, h]; rfl
  · rw [if_neg h]
    exact digitsVal_natRevDigits n

/-! ### takeWhile / dropWhile over concatenations -/

theorem takeWhile_append_all {α : Type} (p : α → Bool) (l1 l2 : List α)
    (h : ∀ c ∈ l1, p c = true) :
    (l1 ++ l2).takeWhile p = l1 ++ l2.takeWhile p := by
  induction l1 with
  | nil => simp
  | cons c cs ih =>
    simp only [List.cons_append, List.takeWhile_cons]
    rw [h c (List.mem_cons_self _ _), if_pos rfl,
      ih (fun x hx => h x (List.mem_cons_of_mem c hx))]

theorem dropWhile_append_all {α : Type} (p : α → Bool) (l1 l2 : List α)
    (h : ∀ c ∈ l1, p c = true) :
    (l1 ++ l2).dropWhile p = l2.dropWhile p := by
  induction l1 with
  | nil => simp
  | cons c cs ih =>
    simp only [List.cons_append, List.dropWhile_cons]
    rw [h c (List.mem_cons_self _ _), if_pos rfl]
    exact ih (fun x hx => h x (List.mem_cons_of_mem c hx))

theorem takeWhile_cons_neg {α : Type} (p : α → Bool) (c : α) (l : List α)
    (h : p c = false) : (c :: l).takeWhile p = [] := by
  simp [List.takeWhile_cons, h]

theorem dropWhile_cons_neg {α : Type} (p : α → Bool) (c : α) (l : List α)
    (h : p c = false) : (c :: l).dropWhile p = c :: l := by
  simp [List.dropWhile_cons, h]

/-! ### Path state lemmas -/

theorem not_slash_of_not_stopAuth (c : Char) (h : stopAuth c = false) :
    ¬ (c = '/' ∨ c = '\\') := by
  unfold stopAuth at h
  simp only [Bool.or_eq_false_iff, decide_eq_false_iff_not] at h
  rintro (rfl | rfl)
  · exact h.1.1.1 rfl
  · exact h.1.1.2 rfl

theorem segOK_no_slash (s : List Char) (h : segOK s = true) :
    ∀ c ∈ s, ¬ (c = '/' ∨ c = '\\') := by
  unfold segOK at h
  simp only [Bool.and_eq_true, List.all_eq_true, Bool.not_eq_true',
    decide_eq_true_eq] at h
  intro c hc
  exact not_slash_of_not_stopAuth c (h.1.1 c hc)

theorem segOK_not_dots (s : List Char) (h : segOK s = true) :
    ¬ s = ['.'] ∧ ¬ s = ['.', '.'] := by
  unfold segOK at h
  simp only [Bool.and_eq_true, decide_eq_true_eq] at h
  exact ⟨h.1.2, h.2⟩

theorem flushSeg_segOK_eq (acc : List (List Char)) (buf : List Char) (b : Bool)
    (h : segOK buf = true) : flushSeg acc buf b = acc ++ [buf] := by
  obtain ⟨h1, h2⟩ := segOK_not_dots buf h
  unfold flushSeg
  rw [if_neg h2, if_neg h1]

theorem pathFold_append_nonslash (cs : List Char)
    (h : ∀ c ∈ cs, ¬ (c = '/' ∨ c = '\\')) (acc : List (List Char))
    (buf l : List Char) :
    pathFold acc buf (cs ++ l) = pathFold acc (buf ++ cs) l := by
  induction cs generalizing buf with
  | nil => simp
  | cons c cs ih =>
    simp only [List.cons_append]
    rw [pathFold]
    rw [if_neg (h c (List.mem_cons_self _ _))]
    rw [ih (fun x hx => h x (List.mem_cons_of_mem c hx)) (buf ++ [c])]
    simp

theorem pathChars_cons (p : List Char) (ps : List (List Char)) :
    pathChars (p :: ps) = '/' :: (p ++ pathChars ps) := by
  unfold pathChars
  simp

theorem pathFold_restChars (path : List (List Char)) (acc : List (List Char))
    (hne : ¬ path = []) (hOK : ∀ s ∈ path, segOK s = true) :
    pathFold acc [] (restChars path) = acc ++ path := by
  induction path generalizing acc with
  | nil => exact absurd rfl hne
  | cons p ps ih =>
    have hp : segOK p = true := hOK p (List.mem_cons_self _ _)
    cases ps with
    | nil =>
      have h1 := pathFold_append_nonslash p (segOK_no_slash _ hp) acc [] []
      rw [List.nil_append] at h1
      show pathFold acc [] (p ++ []) = acc ++ [p]
      rw [h1]
      exact flushSeg_segOK_eq acc p false hp
    | cons q qs =>
      show pathFold acc [] (p ++ pathChars (q :: qs)) = acc ++ p :: q :: qs
      rw [pathChars_cons q qs]
      have h1 := pathFold_append_nonslash p (segOK_no_slash _ hp) acc []
        ('/' :: (q ++ pathChars qs))
      rw [List.nil_append] at h1
      rw [h1]
      rw [pathFold]
      rw [if_pos (Or.inl rfl)]
      rw [flushSeg_segOK_eq acc p true hp]
      have h2 := ih (acc ++ [p]) (by simp)
        (fun s hs => hOK s (List.mem_cons_of_mem p hs))
      rw [show (q ++ pathChars qs) = restChars (q :: qs) from rfl, h2]
      simp

theorem parsePathPortion_pathChars (path : List (List Char))
    (hne : ¬ path = []) (hOK : ∀ s ∈ path, segOK s = true) :
    parsePathPortion (pathChars path) = path := by
  cases path with
  | nil => exact absurd rfl hne
  | cons p ps =>
    rw [pathChars_cons]
    have he : parsePathPortion ('/' :: (p ++ pathChars ps)) =
        pathFold [] [] (p ++ pathChars ps) := by
      simp [parsePathPortion]
    rw [he]
    exact pathFold_restChars (p :: ps) [] hne hOK

theorem flushSeg_ne_nil (acc : List (List Char)) (buf : List Char) :
    ¬ flushSeg acc buf false = [] := by
  unfold flushSeg
  split
  · simp
  · split
    · simp
    · simp

theorem pathFold_ne_nil (l : List Char) :
    ∀ acc buf, ¬ pathFold acc buf l = [] := by
  induction l with
  | nil => exact fun acc buf => flushSeg_ne_nil acc buf
  | cons c rest ih =>
    intro acc buf
    rw [pathFold]
    split
    · exact ih _ _
    · exact ih _ _

theorem flushSeg_all_segOK (acc : List (List Char)) (buf : List Char) (b : Bool)
    (hacc : ∀ s ∈ acc, segOK s = true) (hbuf : ∀ c ∈ buf, stopAuth c = false) :
    ∀ s ∈ flushSeg acc buf b, segOK s = true := by
  have hnil : segOK [] = true := by decide
  have hsub : ∀ s ∈ acc.dropLast, segOK s = true :=
    fun s hs => hacc s (List.Sublist.mem hs (List.dropLast_sublist acc))
  unfold flushSeg
  split
  · split
    · exact hsub
    · intro s hs
      rcases List.mem_append.mp hs with h | h
      · exact hsub s h
      · rw [List.mem_singleton.mp h]; exact hnil
  · split
    · split
      · exact hacc
      · intro s hs
        rcases List.mem_append.mp hs with h | h
        · exact hacc s h
        · rw [List.mem_singleton.mp h]; exact hnil
    · intro s hs
      rcases List.mem_append.mp hs with h | h
      · exact hacc s h
      · rw [List.mem_singleton.mp h]
        rename_i hdd hd
        unfold segOK
        simp only [Bool.and_eq_true, List.all_eq_true, Bool.not_eq_true',
          decide_eq_true_eq]
        exact ⟨⟨fun c hc => hbuf c hc, hd⟩, hdd⟩

theorem pathFold_all_segOK (l : List Char)
    (hl : ∀ c ∈ l, ¬ c = '?' ∧ ¬ c = '#') :
    ∀ acc buf, (∀ s ∈ acc, segOK s = true) →
    (∀ c ∈ buf, stopAuth c = false) →
    ∀ s ∈ pathFold acc buf l, segOK s = true := by
  induction l with
  | nil => exact fun acc buf hacc hbuf => flushSeg_all_segOK acc buf false hacc hbuf
  | cons c rest ih =>
    intro acc buf hacc hbuf
    rw [pathFold]
    split
    · exact ih (fun x hx => hl x (List.mem_cons_of_mem c hx)) _ []
        (flushSeg_all_segOK acc buf true hacc hbuf) (by simp)
    · refine ih (fun x hx => hl x (List.mem_cons_of_mem c hx)) _ (buf ++ [c]) hacc ?_
      intro x hx
      rcases List.mem_append.mp hx with h | h
      · exact hbuf x h
      · rw [List.mem_singleton.mp h]
        have hq := hl c (List.mem_cons_self _ _)
        rename_i hslash
        unfold stopAuth
        simp only [Bool.or_eq_false_iff, decide_eq_false_iff_not]
        refine ⟨⟨⟨?_, ?_⟩, hq.1⟩, hq.2⟩
        · intro hcon; exact hslash (Or.inl hcon)
        · intro hcon; exact hslash (Or.inr hcon)

theorem parsePathPortion_props (s : List Char)
    (hs : ∀ c ∈ s, ¬ c = '?' ∧ ¬ c = '#') :
    ¬ parsePathPortion s = [] ∧ ∀ x ∈ parsePathPortion s, segOK x = true := by
  rcases s with _ | ⟨c, rest⟩
  · exact ⟨pathFold_ne_nil [] [] [],
      pathFold_all_segOK [] (by simp) [] [] (by simp) (by simp)⟩
  · by_cases hc : c = '/' ∨ c = '\\'
    · have he : parsePathPortion (c :: rest) = pathFold [] [] rest := by
        simp only [parsePathPortion, if_pos hc]
      rw [he]
      exact ⟨pathFold_ne_nil rest [] [],
        pathFold_all_segOK rest (fun x hx => hs x (List.mem_cons_of_mem c hx)) [] []
          (by simp) (by simp)⟩
    · have he : parsePathPortion (c :: rest) = pathFold [] [] (c :: rest) := by
        simp only [parsePathPortion, if_neg hc]
      rw [he]
      exact ⟨pathFold_ne_nil (c :: rest) [] [],
        pathFold_all_segOK (c :: rest) hs [] [] (by simp) (by simp)⟩

/-! ### Query and fragment splitting -/

theorem takeWhile_all {α : Type} (p : α → Bool) (l : List α)
    (h : ∀ c ∈ l, p c = true) : l.takeWhile p = l := by
  have := takeWhile_append_all p l [] h
  simpa using this

theorem dropWhile_all {α : Type} (p : α → Bool) (l : List α)
    (h : ∀ c ∈ l, p c = true) : l.dropWhile p = [] := by
  have := dropWhile_append_all p l [] h
  simpa using this

theorem splitFragment_append (l : List Char) (f : Option (List Char))
    (h : ∀ c ∈ l, ¬ c = '#') :
    splitFragment (l ++ optPart '#' f) = (l, f) := by
  have hb : ∀ c ∈ l, (fun c => decide (¬ c = '#')) c = true := by
    intro c hc
    simp [h c hc]
  cases f with
  | none =>
    show splitFragment (l ++ []) = (l, none)
    rw [List.append_nil]
    unfold splitFragment
    rw [takeWhile_all _ l hb, dropWhile_all _ l hb]
  | some f =>
    show splitFragment (l ++ '#' :: f) = (l, some f)
    unfold splitFragment
    rw [takeWhile_append_all _ l _ hb, dropWhile_append_all _ l _ hb]
    rw [takeWhile_cons_neg _ _ _ (by simp), dropWhile_cons_neg _ _ _ (by simp)]
    simp

theorem splitQuery_append (l : List Char) (q : Option (List Char))
    (h : ∀ c ∈ l, ¬ c = '?') :
    splitQuery (l ++ optPart '?' q) = (l, q) := by
  have hb : ∀ c ∈ l, (fun c => decide (¬ c = '?')) c = true := by
    intro c hc
    simp [h c hc]
  cases q with
  | none =>
    show splitQuery (l ++ []) = (l, none)
    rw [List.append_nil]
    unfold splitQuery
    rw [takeWhile_all _ l hb, dropWhile_all _ l hb]
  | some q =>
    show splitQuery (l ++ '?' :: q) = (l, some q)
    unfold splitQuery
    rw [takeWhile_append_all _ l _ hb, dropWhile_append_all _ l _ hb]
    rw [takeWhile_cons_neg _ _ _ (by simp), dropWhile_cons_neg _ _ _ (by simp)]
    simp

theorem split_qf (l : List Char) (q f : Option (List Char))
    (hlq : ∀ c ∈ l, ¬ c = '?') (hlf : ∀ c ∈ l, ¬ c = '#')
    (hq : ∀ s, q = some s → ∀ c ∈ s, ¬ c = '#') :
    splitFragment (l ++ (optPart '?' q ++ optPart '#' f)) =
      (l ++ optPart '?' q, f) ∧
    splitQuery (l ++ optPart '?' q) = (l, q) := by
  constructor
  · rw [← List.append_assoc]
    apply splitFragment_append
    intro c hc
    rcases List.mem_append.mp hc with h1 | h1
    · exact hlf c h1
    · cases q with
      | none => cases h1
      | some s =>
        rcases List.mem_cons.mp h1 with h2 | h2
        · rw [h2]; decide
        · exact hq s rfl c h2
  · exact splitQuery_append l q hlq

/-! ### Stripping trailing slashes against serialized paths -/

theorem pathChars_append (a b : List (List Char)) :
    pathChars (a ++ b) = pathChars a ++ pathChars b := by
  unfold pathChars
  simp

theorem stripTrailing_pathChars (segs : List (List Char))
    (hOK : ∀ s ∈ segs, segOK s = true) :
    stripTrailing (pathChars segs) = pathChars (dropTrailingEmpties segs) := by
  induction segs using List.reverseRecOn with
  | nil => rfl
  | append_singleton segs s ih =>
    by_cases hs : s = []
    · subst hs
      have hlhs : pathChars (segs ++ [[]]) = pathChars segs ++ ['/'] := by
        rw [pathChars_append]; rfl
      rw [hlhs]
      unfold stripTrailing
      rw [List.reverse_append]
      show ((('/' :: []) ++ (pathChars segs).reverse).dropWhile _).reverse = _
      rw [List.cons_append, List.nil_append]
      rw [List.dropWhile_cons]
      rw [if_pos (by simp)]
      have h1 : dropTrailingEmpties (segs ++ [[]]) = dropTrailingEmpties segs := by
        unfold dropTrailingEmpties
        rw [List.reverse_append]
        show ((([] :: []) ++ segs.reverse).dropWhile _).reverse = _
        rw [List.cons_append, List.nil_append, List.dropWhile_cons]
        rw [if_pos (by simp)]
      rw [h1]
      exact ih (fun x hx => hOK x (List.mem_append.mpr (Or.inl hx)))
    · have hseg : segOK s = true := hOK s (List.mem_append.mpr (Or.inr (by simp)))
      have hlhs : pathChars (segs ++ [s]) = pathChars segs ++ '/' :: s := by
        rw [pathChars_append]; simp [pathChars]
      rw [hlhs]
      unfold stripTrailing
      rw [List.reverse_append]
      rcases hrev : s.reverse with _ | ⟨y, ys⟩
      · exact absurd (by simpa using congrArg List.reverse hrev) hs
      · have hy : y ∈ s := by
          rw [← List.mem_reverse, hrev]
          exact List.mem_cons_self _ _
        have hyne : ¬ (y = '/' ∨ y = '\\') := segOK_no_slash s hseg y hy
        have hs2 : ys.reverse ++ [y] = s := by
          have h3 := congrArg List.reverse hrev
          rw [List.reverse_reverse] at h3
          rw [h3]
          simp
        rw [List.reverse_cons, hrev]
        rw [show ((y :: ys) ++ ['/']) ++ (pathChars segs).reverse =
          y :: (ys ++ ['/'] ++ (pathChars segs).reverse) by simp]
        rw [List.dropWhile_cons]
        rw [if_neg (by simp only [decide_eq_true_eq]; intro hcon; exact hyne (Or.inl hcon))]
        have h1 : dropTrailingEmpties (segs ++ [s]) = segs ++ [s] := by
          unfold dropTrailingEmpties
          rw [List.reverse_append]
          rw [show ([s].reverse ++ segs.reverse) = s :: segs.reverse by simp]
          rw [List.dropWhile_cons]
          rw [if_neg (by simp [hs])]
          simp
        rw [h1, hlhs]
        rw [← hs2]
        simp

/-! ### Round trip: parsing a serialized well-formed record -/

theorem map_asciiLower_id (s : List Char) (h : ∀ c ∈ s, asciiLower c = c) :
    s.map asciiLower = s := by
  induction s with
  | nil => rfl
  | cons c cs ih =>
    simp only [List.map_cons]
    rw [h c (List.mem_cons_self _ _), ih (fun x hx => h x (List.mem_cons_of_mem c hx))]

theorem schemeWF_elim (s : List Char) (h : schemeWF s = true) :
    (∀ c ∈ s, schemeChar c = true ∧ asciiLower c = c) ∧
    ∃ c cs, s = c :: cs ∧ alphaChar c = true := by
  unfold schemeWF at h
  rcases s with _ | ⟨c, cs⟩
  · simp at h
  · simp only [Bool.and_eq_true, List.all_eq_true, decide_eq_true_eq] at h
    exact ⟨fun x hx => (h.2 x hx), c, cs, rfl, h.1⟩

theorem takeScheme_serial (s r : List Char) (hWF : schemeWF s = true) :
    takeScheme (s ++ ':' :: r) = some (s, r) := by
  obtain ⟨hall, c, cs, rfl, halpha⟩ := schemeWF_elim s hWF
  have hd : ((c :: cs) ++ ':' :: r).dropWhile schemeChar = ':' :: r := by
    rw [dropWhile_append_all _ _ _ (fun x hx => (hall x hx).1)]
    exact dropWhile_cons_neg _ _ _ (by decide)
  have ht : ((c :: cs) ++ ':' :: r).takeWhile schemeChar = c :: cs := by
    rw [takeWhile_append_all _ _ _ (fun x hx => (hall x hx).1)]
    rw [takeWhile_cons_neg _ _ _ (by decide)]
    simp
  show takeScheme (c :: (cs ++ ':' :: r)) = some (c :: cs, r)
  simp only [takeScheme]
  rw [if_pos halpha]
  rw [show c :: (cs ++ ':' :: r) = (c :: cs) ++ ':' :: r from rfl, hd, ht]
  rfl

theorem parsePort_serial (scheme : List Char) (port : Option Nat)
    (h : portWF scheme port = true) :
    parsePort scheme (portChars port) = some port := by
  cases port with
  | none => rfl
  | some n =>
    unfold portWF at h
    simp only [Bool.and_eq_true, decide_eq_true_eq] at h
    show parsePort scheme (':' :: natChars n) = some (some n)
    simp only [parsePort]
    rw [if_neg (natChars_ne_nil n)]
    rw [if_pos (List.all_eq_true.mpr (natChars_digits n))]
    simp only [digitsVal_natChars]
    rw [if_pos h.1]
    rw [if_neg h.2]

theorem pathChars_no_qf (path : List (List Char))
    (hOK : ∀ s ∈ path, segOK s = true) :
    ∀ c ∈ pathChars path, ¬ c = '?' ∧ ¬ c = '#' := by
  intro c hc
  unfold pathChars at hc
  rcases List.mem_flatten.mp hc with ⟨l, hl, hcl⟩
  rcases List.mem_map.mp hl with ⟨seg, hseg, rfl⟩
  rcases List.mem_cons.mp hcl with h1 | h1
  · subst h1
    constructor <;> intro hcon <;> cases hcon
  · have := hOK seg hseg
    unfold segOK at this
    simp only [Bool.and_eq_true, List.all_eq_true, Bool.not_eq_true'] at this
    have h2 := this.1.1 c h1
    rw [Bool.eq_false_iff, Ne, stopAuth_iff] at h2
    rw [char_eq_iff_toNat, char_eq_iff_toNat]
    have e1 : ('?' : Char).toNat = 63 := by decide
    have e2 : ('#' : Char).toNat = 35 := by decide
    omega

theorem pathChars_not_stopAuth_tail (path : List (List Char))
    (hOK : ∀ s ∈ path, segOK s = true) :
    ∀ c ∈ pathChars path, c = '/' ∨ stopAuth c = false := by
  intro c hc
  unfold pathChars at hc
  rcases List.mem_flatten.mp hc with ⟨l, hl, hcl⟩
  rcases List.mem_map.mp hl with ⟨seg, hseg, rfl⟩
  rcases List.mem_cons.mp hcl with h1 | h1
  · exact Or.inl h1
  · have := hOK seg hseg
    unfold segOK at this
    simp only [Bool.and_eq_true, List.all_eq_true, Bool.not_eq_true'] at this
    exact Or.inr (this.1.1 c h1)

theorem hostPort_not_stopAuth (host : List Char) (port : Option Nat)
    (hhost : ∀ c ∈ host, hostChar c = true) :
    ∀ c ∈ host ++ portChars port,
      (fun c => decide (¬ stopAuth c = true)) c = true := by
  intro c hc
  simp only [decide_eq_true_eq, Bool.not_eq_true]
  rcases List.mem_append.mp hc with h1 | h1
  · exact hostChar_not_stopAuth c (hhost c h1)
  · cases port with
    | none => cases h1
    | some n =>
      rcases List.mem_cons.mp h1 with h2 | h2
      · rw [h2]; decide
      · exact digitB_not_stopAuth c (natChars_digits n c h2)

theorem parse_serialize (u : UrlRec) (h : u.WF) :
    parseUrlChars (serializeChars u) = some u := by
  obtain ⟨sch, host, port, path, rawP, israw, q, f⟩ := u
  obtain ⟨hscheme, hraw, hauth, hquery⟩ := h
  cases israw with
  | true =>
    obtain ⟨hnsp, hrp, hhost, hport, hpath⟩ := hraw rfl
    simp only at hnsp hrp hhost hport hpath hscheme hquery
    subst hhost hport hpath
    have hser : serializeChars ⟨sch, [], none, [], rawP, true, q, f⟩ =
        sch ++ ':' :: (rawP ++ (optPart '?' q ++ optPart '#' f)) := by
      unfold serializeChars
      simp
    rw [hser]
    obtain ⟨hsf, hsq⟩ := split_qf rawP q f
      (fun c hc => (hrp c hc).1) (fun c hc => (hrp c hc).2)
      (fun s hs c hc => by subst hs; exact hquery s rfl c hc)
    simp only [parseUrlChars, takeScheme_serial _ _ hscheme]
    rw [map_asciiLower_id _ (fun c hc => ((schemeWF_elim _ hscheme).1 c hc).2)]
    rw [if_neg hnsp]
    rw [hsf]
    simp only
    rw [hsq]
  | false =>
    obtain ⟨hsp, hhne, hhost, hport, hpne, hpath, hrp⟩ := hauth rfl
    simp only at hsp hhne hhost hport hpne hpath hrp hscheme hquery
    subst hrp
    have hser : serializeChars ⟨sch, host, port, path, [], false, q, f⟩ =
        sch ++ ':' :: ('/' :: '/' :: (host ++ portChars port ++
          (pathChars path ++ (optPart '?' q ++ optPart '#' f)))) := by
      unfold serializeChars
      simp
    rw [hser]
    rcases hhd : host with _ | ⟨h0, hs0⟩
    · exact absurd hhd hhne
    rcases hpd : path with _ | ⟨p0, ps0⟩
    · exact absurd hpd hpne
    subst hhd hpd
    have hslash : ∀ x, x ∈ ('/' : Char) :: ['/'] →
        (fun c => decide (c = '/' ∨ c = '\\')) x = true := by
      intro x hx
      rcases List.mem_cons.mp hx with h1 | h1
      · rw [h1]; decide
      · rcases List.mem_singleton.mp h1
        decide
    have hds : (('/' :: '/' :: (h0 :: hs0 ++ portChars port ++
        (pathChars (p0 :: ps0) ++ (optPart '?' q ++ optPart '#' f))))).dropWhile
          (fun c => decide (c = '/' ∨ c = '\\')) =
        h0 :: hs0 ++ portChars port ++
          (pathChars (p0 :: ps0) ++ (optPart '?' q ++ optPart '#' f)) := by
      rw [List.dropWhile_cons, if_pos (by decide)]
      rw [List.dropWhile_cons, if_pos (by decide)]
      apply dropWhile_cons_neg
      rw [decide_eq_false_iff_not]
      exact hostChar_not_slash h0 (hhost h0 (List.mem_cons_self _ _)).1
    have hXeq : h0 :: hs0 ++ portChars port ++
        (pathChars (p0 :: ps0) ++ (optPart '?' q ++ optPart '#' f)) =
        (h0 :: hs0 ++ portChars port) ++
        (pathChars (p0 :: ps0) ++ (optPart '?' q ++ optPart '#' f)) := by
      simp
    have hallhp := hostPort_not_stopAuth (h0 :: hs0) port
      (fun c hc => (hhost c hc).1)
    have hpc : pathChars (p0 :: ps0) ++ (optPart '?' q ++ optPart '#' f) =
        '/' :: (p0 ++ pathChars ps0 ++ (optPart '?' q ++ optPart '#' f)) := by
      rw [pathChars_cons]
      simp
    have htk : (h0 :: hs0 ++ portChars port ++
        (pathChars (p0 :: ps0) ++ (optPart '?' q ++ optPart '#' f))).takeWhile
          (fun c => decide (¬ stopAuth c = true)) =
        h0 :: hs0 ++ portChars port := by
      rw [hXeq, takeWhile_append_all _ _ _ hallhp, hpc]
      rw [takeWhile_cons_neg _ _ _ (by decide)]
      simp
    have hdw : (h0 :: hs0 ++ portChars port ++
        (pathChars (p0 :: ps0) ++ (optPart '?' q ++ optPart '#' f))).dropWhile
          (fun c => decide (¬ stopAuth c = true)) =
        pathChars (p0 :: ps0) ++ (optPart '?' q ++ optPart '#' f) := by
      rw [hXeq, dropWhile_append_all _ _ _ hallhp, hpc]
      rw [dropWhile_cons_neg _ _ _ (by decide)]
    have hnobad : (h0 :: hs0 ++ portChars port).any badAuthChar = false := by
      rw [List.any_eq_false]
      intro c hc
      rcases List.mem_append.mp hc with h1 | h1
      · rw [Bool.not_eq_true]
        exact hostChar_not_bad c (hhost c h1).1
      · rw [Bool.not_eq_true]
        cases port with
        | none => cases h1
        | some n =>
          rcases List.mem_cons.mp h1 with h2 | h2
          · rw [h2]; decide
          · exact digitB_not_bad c (natChars_digits n c h2)
    have hhtk : (h0 :: hs0 ++ portChars port).takeWhile
        (fun c => decide (¬ c = ':')) = h0 :: hs0 := by
      have hh : ∀ c ∈ h0 :: hs0, (fun c => decide (¬ c = ':')) c = true := by
        intro c hc
        simp only [decide_eq_true_eq]
        exact hostChar_ne_colon c (hhost c hc).1
      cases port with
      | none =>
        show ((h0 :: hs0) ++ []).takeWhile _ = h0 :: hs0
        rw [List.append_nil]
        exact takeWhile_all _ _ hh
      | some n =>
        rw [takeWhile_append_all _ _ _ hh]
        rw [show portChars (some n) = ':' :: natChars n from rfl]
        rw [takeWhile_cons_neg _ _ _ (by decide)]
        simp
    have hhdw : (h0 :: hs0 ++ portChars port).dropWhile
        (fun c => decide (¬ c = ':')) = portChars port := by
      have hh : ∀ c ∈ h0 :: hs0, (fun c => decide (¬ c = ':')) c = true := by
        intro c hc
        simp only [decide_eq_true_eq]
        exact hostChar_ne_colon c (hhost c hc).1
      cases port with
      | none =>
        show ((h0 :: hs0) ++ []).dropWhile _ = []
        rw [List.append_nil]
        exact dropWhile_all _ _ hh
      | some n =>
        rw [dropWhile_append_all _ _ _ hh]
        rw [show portChars (some n) = ':' :: natChars n from rfl]
        exact dropWhile_cons_neg _ _ _ (by decide)
    obtain ⟨hsf, hsq⟩ := split_qf (pathChars (p0 :: ps0)) q f
      (fun c hc => (pathChars_no_qf _ hpath c hc).1)
      (fun c hc => (pathChars_no_qf _ hpath c hc).2)
      (fun s hs c hc => by subst hs; exact hquery s rfl c hc)
    simp only [parseUrlChars, takeScheme_serial _ _ hscheme]
    rw [map_asciiLower_id _ (fun c hc => ((schemeWF_elim _ hscheme).1 c hc).2)]
    rw [if_pos hsp]
    rw [hds, htk, hdw, hnobad]
    simp only [Bool.false_eq_true, if_false]
    rw [hhtk, hhdw]
    rw [map_asciiLower_id _ (fun c hc => (hhost c hc).2)]
    rw [if_neg (by simp)]
    rw [parsePort_serial _ _ hport]
    rw [hsf]
    simp only
    rw [hsq]
    simp only
    rw [parsePathPortion_pathChars _ hpne hpath]

/-! ### Every parse result is well-formed -/

theorem takeScheme_inv (l : List Char) (sr rest : List Char)
    (h : takeScheme l = some (sr, rest)) :
    sr = l.takeWhile schemeChar ∧
    ∃ c t, l = c :: t ∧ alphaChar c = true := by
  rcases l with _ | ⟨c, t⟩
  · cases h
  · simp only [takeScheme] at h
    by_cases halpha : alphaChar c
    · rw [if_pos halpha] at h
      rcases hdw : (c :: t).dropWhile schemeChar with _ | ⟨d, rest'⟩
      · rw [hdw] at h; cases h
      · rw [hdw] at h
        simp only at h
        by_cases hd : d = ':'
        · rw [if_pos hd] at h
          injection h with h2
          injection h2 with h3 h4
          exact ⟨h3.symm, c, t, rfl, halpha⟩
        · rw [if_neg hd] at h; cases h
    · rw [if_neg halpha] at h; cases h

theorem schemeWF_map (l : List Char) (sr rest : List Char)
    (hts : takeScheme l = some (sr, rest)) :
    schemeWF (sr.map asciiLower) = true := by
  obtain ⟨hsr, c, t, rfl, halpha⟩ := takeScheme_inv l sr rest hts
  have hc : schemeChar c = true := by
    rw [schemeChar_iff]
    rw [alphaChar_iff] at halpha
    rcases halpha with h | h
    · exact Or.inl h
    · exact Or.inr (Or.inl h)
  have hsr2 : sr = c :: t.takeWhile schemeChar := by
    rw [hsr, List.takeWhile_cons, if_pos hc]
  subst hsr2
  unfold schemeWF
  simp only [List.map_cons, Bool.and_eq_true, List.all_eq_true]
  constructor
  · exact alphaChar_asciiLower c halpha
  · intro x hx
    simp only [Bool.and_eq_true, decide_eq_true_eq]
    rcases List.mem_cons.mp hx with rfl | hx2
    · exact ⟨schemeChar_asciiLower c hc, asciiLower_idem c⟩
    · rcases List.mem_map.mp hx2 with ⟨y, hy, rfl⟩
      have hy2 : schemeChar y = true := List.mem_takeWhile_imp hy
      exact ⟨schemeChar_asciiLower y hy2, asciiLower_idem y⟩

theorem parsePort_inv (scheme pp : List Char) (port : Option Nat)
    (h : parsePort scheme pp = some port) : portWF scheme port = true := by
  rcases pp with _ | ⟨c, ds⟩
  · injection h with h2
    rw [← h2]
    rfl
  · simp only [parsePort] at h
    by_cases hds : ds = []
    · rw [if_pos hds] at h
      injection h with h2
      rw [← h2]
      rfl
    · rw [if_neg hds] at h
      by_cases hdig : ds.all digitB = true
      · rw [if_pos hdig] at h
        by_cases hle : digitsVal ds ≤ 65535
        · rw [if_pos hle] at h
          injection h with h2
          rw [← h2]
          by_cases hdef : defaultPort scheme = some (digitsVal ds)
          · rw [if_pos hdef]; rfl
          · rw [if_neg hdef]
            unfold portWF
            simp [hle, hdef]
        · rw [if_neg hle] at h; cases h
      · rw [if_neg hdig] at h; cases h

theorem parse_WF (l : List Char) (u : UrlRec) (h : parseUrlChars l = some u) :
    u.WF := by
  unfold parseUrlChars at h
  rcases hts : takeScheme l with _ | ⟨sr, rest⟩
  · rw [hts] at h; cases h
  · rw [hts] at h
    simp only [splitFragment, splitQuery] at h
    have hswf := schemeWF_map l sr rest hts
    by_cases hsp : sr.map asciiLower ∈ specials
    · rw [if_pos hsp] at h
      generalize hAS : rest.dropWhile (fun c => decide (c = '/' ∨ c = '\\')) = AS at h
      generalize hAuth : AS.takeWhile (fun c => decide (¬ stopAuth c = true)) = auth at h
      generalize hAA : AS.dropWhile (fun c => decide (¬ stopAuth c = true)) = AA at h
      by_cases hbad : auth.any badAuthChar = true
      · rw [if_pos hbad] at h; cases h
      · rw [if_neg hbad] at h
        generalize hHR : auth.takeWhile (fun c => decide (¬ c = ':')) = hostRaw at h
        generalize hPP : auth.dropWhile (fun c => decide (¬ c = ':')) = portPart at h
        generalize hBF : AA.takeWhile (fun c => decide (¬ c = '#')) = beforeFrag at h
        by_cases hhe : hostRaw.map asciiLower = []
        · rw [if_pos hhe] at h; cases h
        · rw [if_neg hhe] at h
          rcases hpp : parsePort (sr.map asciiLower) portPart with _ | port
          · rw [hpp] at h; cases h
          · rw [hpp] at h
            simp only at h
            injection h with h2
            subst h2
            have hhostall : ∀ c ∈ hostRaw.map asciiLower,
                hostChar c = true ∧ asciiLower c = c := by
              intro c hc
              rcases List.mem_map.mp hc with ⟨y, hy, rfl⟩
              rw [← hHR] at hy
              have hy1 : decide (¬ y = ':') = true :=
                List.mem_takeWhile_imp (p := fun c => decide (¬ c = ':')) hy
              have hy2 : y ∈ auth := by
                rw [← hAuth] at hy ⊢
                exact List.Sublist.mem hy (List.takeWhile_sublist _)
              have hy3 : decide (¬ stopAuth y = true) = true := by
                rw [← hAuth] at hy2
                exact List.mem_takeWhile_imp
                  (p := fun c => decide (¬ stopAuth c = true)) hy2
              have hy4 : badAuthChar y = false := by
                rcases hb : badAuthChar y with _ | _
                · rfl
                · exact absurd (List.any_eq_true.mpr ⟨y, hy2, hb⟩) hbad
              have hyh : hostChar y = true := by
                unfold hostChar
                simp only [decide_eq_true_eq, Bool.not_eq_true] at hy1 hy3
                simp [hy1, hy3, hy4]
              exact ⟨hostChar_asciiLower y hyh, asciiLower_idem y⟩
            have hpc : ∀ c ∈ beforeFrag.takeWhile (fun c => decide (¬ c = '?')),
                ¬ c = '?' ∧ ¬ c = '#' := by
              intro c hc
              have h1 := List.mem_takeWhile_imp hc
              have h2 : c ∈ beforeFrag :=
                List.Sublist.mem hc (List.takeWhile_sublist _)
              rw [← hBF] at h2
              have h3 := List.mem_takeWhile_imp h2
              simp only [decide_eq_true_eq] at h1 h3
              exact ⟨h1, h3⟩
            have hpprops := parsePathPortion_props
              (beforeFrag.takeWhile (fun c => decide (¬ c = '?'))) hpc
            refine ⟨hswf, ?_, ?_, ?_⟩
            · intro hcon; cases hcon
            · intro _
              exact ⟨hsp, hhe, hhostall, parsePort_inv _ _ _ hpp,
                hpprops.1, hpprops.2, rfl⟩
            · intro q hq c hc
              simp only at hq
              rcases hdq : beforeFrag.dropWhile (fun c => decide (¬ c = '?'))
                with _ | ⟨d, restq⟩
              · rw [hdq] at hq; cases hq
              · rw [hdq] at hq
                simp only at hq
                injection hq with hq2
                subst hq2
                have hmem : c ∈ beforeFrag := by
                  have : c ∈ beforeFrag.dropWhile (fun c => decide (¬ c = '?')) := by
                    rw [hdq]
                    exact List.mem_cons_of_mem d hc
                  exact List.Sublist.mem this (List.dropWhile_sublist _)
                rw [← hBF] at hmem
                have h3 := List.mem_takeWhile_imp hmem
                simpa using h3
    · rw [if_neg hsp] at h
      injection h with h2
      subst h2
      refine ⟨hswf, ?_, ?_, ?_⟩
      · intro _
        refine ⟨hsp, ?_, rfl, rfl, rfl⟩
        intro c hc
        have h1 := List.mem_takeWhile_imp hc
        have h2 : c ∈ rest.takeWhile (fun c => decide (¬ c = '#')) :=
          List.Sublist.mem hc (List.takeWhile_sublist _)
        have h3 := List.mem_takeWhile_imp h2
        simp only [decide_eq_true_eq] at h1 h3
        exact ⟨h1, h3⟩
      · intro hcon; cases hcon
      · intro q hq c hc
        simp only at hq
        rcases hdq : (rest.takeWhile (fun c => decide (¬ c = '#'))).dropWhile
            (fun c => decide (¬ c = '?')) with _ | ⟨d, restq⟩
        · rw [hdq] at hq; cases hq
        · rw [hdq] at hq
          simp only at hq
          injection hq with hq2
          subst hq2
          have hmem : c ∈ rest.takeWhile (fun c => decide (¬ c = '#')) := by
            have : c ∈ (rest.takeWhile (fun c => decide (¬ c = '#'))).dropWhile
                (fun c => decide (¬ c = '?')) := by
              rw [hdq]
              exact List.mem_cons_of_mem d hc
            exact List.Sublist.mem this (List.dropWhile_sublist _)
          have h3 := List.mem_takeWhile_imp hmem
          simpa using h3

/-! ### The normalizer preserves canonical form and is idempotent on it -/

theorem dropWhile_head_false {α : Type} (p : α → Bool) (l : List α) (x : α)
    (xs : List α) (h : l.dropWhile p = x :: xs) : p x = false := by
  induction l with
  | nil => cases h
  | cons c cs ih =>
    rw [List.dropWhile_cons] at h
    by_cases hc : p c = true
    · rw [if_pos hc] at h; exact ih h
    · rw [if_neg hc] at h
      injection h with h1 h2
      subst h1
      exact Bool.eq_false_iff.mpr hc

theorem dropTrailingEmpties_subset (segs : List (List Char)) :
    ∀ s ∈ dropTrailingEmpties segs, s ∈ segs := by
  intro s hs
  unfold dropTrailingEmpties at hs
  rw [List.mem_reverse] at hs
  have := List.Sublist.mem hs (List.dropWhile_sublist _)
  rwa [List.mem_reverse] at this

theorem dropTrailingEmpties_last (segs : List (List Char))
    (h : ¬ dropTrailingEmpties segs = []) :
    ∃ s rs, (dropTrailingEmpties segs).reverse = s :: rs ∧ ¬ s = [] := by
  rcases hd : segs.reverse.dropWhile (fun s => s.isEmpty) with _ | ⟨s, rs⟩
  · exact absurd (by unfold dropTrailingEmpties; rw [hd]; rfl) h
  · refine ⟨s, rs, ?_, ?_⟩
    · unfold dropTrailingEmpties
      rw [List.reverse_reverse, hd]
    · have := dropWhile_head_false _ _ _ _ hd
      simpa using this

theorem stripTrailing_subset (p : List Char) :
    ∀ c ∈ stripTrailing p, c ∈ p := by
  intro c hc
  unfold stripTrailing at hc
  rw [List.mem_reverse] at hc
  have := List.Sublist.mem hc (List.dropWhile_sublist _)
  rwa [List.mem_reverse] at this

theorem normRec_WF (u : UrlRec) (h : u.WF) : (normRec u).WF := by
  obtain ⟨sch, host, port, path, rawP, israw, q, f⟩ := u
  obtain ⟨hscheme, hraw, hauth, hquery⟩ := h
  unfold normRec UrlRec.setPath
  cases israw with
  | true =>
    simp only [UrlRec.pathnameChars, if_pos rfl, if_true, ite_true, if_false, ite_false, Bool.false_eq_true]
    by_cases hcond : 1 < rawP.length ∧ rawP.getLast? = some '/'
    · rw [if_pos hcond]
      exact ⟨hscheme, fun _ => hraw rfl, (by intro hcon; cases hcon),
        fun s hs => hquery s hs⟩
    · rw [if_neg hcond]
      exact ⟨hscheme, fun _ => hraw rfl, (by intro hcon; cases hcon),
        fun s hs => hquery s hs⟩
  | false =>
    obtain ⟨hsp, hhne, hhost, hport, hpne, hpath, hrp⟩ := hauth rfl
    simp only at hsp hhne hhost hport hpne hpath hrp
    simp only [UrlRec.pathnameChars, if_true, ite_true, if_false, ite_false, Bool.false_eq_true]
    split
    · have hchars : ∀ c ∈ stripTrailing (pathChars path), ¬ c = '?' ∧ ¬ c = '#' := by
        intro c hc
        exact pathChars_no_qf path hpath c (stripTrailing_subset _ c hc)
      have hp := parsePathPortion_props _ hchars
      exact ⟨hscheme, (by intro hcon; cases hcon),
        fun _ => ⟨hsp, hhne, hhost, hport, hp.1, hp.2, hrp⟩,
        fun s hs => hquery s hs⟩
    · exact ⟨hscheme, (by intro hcon; cases hcon),
        fun _ => ⟨hsp, hhne, hhost, hport, hpne, hpath, hrp⟩,
        fun s hs => hquery s hs⟩

theorem pathChars_getLast_of_rev (segs : List (List Char)) (s : List Char)
    (rs : List (List Char)) (hrev : segs.reverse = s :: rs) (hs : ¬ s = [])
    (hOK : segOK s = true) :
    ∃ y, (pathChars segs).getLast? = some y ∧ ¬ (y = '/' ∨ y = '\\') := by
  have hsegs : segs = rs.reverse ++ [s] := by
    have h2 := congrArg List.reverse hrev
    rw [List.reverse_reverse] at h2
    rw [h2, List.reverse_cons]
  have hy := List.getLast_mem (l := s) (fun hcon => hs hcon)
  refine ⟨s.getLast (fun hcon => hs hcon), ?_, segOK_no_slash s hOK _ hy⟩
  rw [hsegs, pathChars_append]
  rw [show pathChars [s] = '/' :: s from by simp [pathChars]]
  rw [List.getLast?_append_cons]
  rcases s with _ | ⟨c0, cs0⟩
  · exact absurd rfl hs
  · rw [List.getLast?_cons_cons]
    exact List.getLast?_eq_getLast _ _

theorem normRec_idem (u : UrlRec) (h : u.WF) :
    normRec (normRec u) = normRec u := by
  obtain ⟨sch, host, port, path, rawP, israw, q, f⟩ := u
  obtain ⟨hscheme, hraw, hauth, hquery⟩ := h
  cases israw with
  | true =>
    have h1 : normRec ⟨sch, host, port, path, rawP, true, q, f⟩ =
        ⟨sch, host, port, path, rawP, true, q, none⟩ := by
      unfold normRec UrlRec.setPath
      simp only [UrlRec.pathnameChars, if_pos rfl, if_true, ite_true, if_false, ite_false, Bool.false_eq_true]
      split <;> rfl
    rw [h1]
    unfold normRec UrlRec.setPath
    simp only [UrlRec.pathnameChars, if_pos rfl, if_true, ite_true, if_false, ite_false, Bool.false_eq_true]
    split <;> rfl
  | false =>
    obtain ⟨hsp, hhne, hhost, hport, hpne, hpath, hrp⟩ := hauth rfl
    simp only at hsp hhne hhost hport hpne hpath hrp
    by_cases hcond : 1 < (pathChars path).length ∧
        (pathChars path).getLast? = some '/'
    · have h1 : normRec ⟨sch, host, port, path, rawP, false, q, f⟩ =
          ⟨sch, host, port, parsePathPortion (stripTrailing (pathChars path)),
            rawP, false, q, none⟩ := by
        unfold normRec UrlRec.setPath
        simp only [UrlRec.pathnameChars, if_neg (Bool.false_ne_true), if_true, ite_true, if_false, ite_false, Bool.false_eq_true]
        rw [if_pos hcond]
      rw [h1]
      have hstrip := stripTrailing_pathChars path hpath
      by_cases hde : dropTrailingEmpties path = []
      · have hpp : parsePathPortion (stripTrailing (pathChars path)) = [[]] := by
          rw [hstrip, hde]
          rfl
        unfold normRec UrlRec.setPath
        simp only [UrlRec.pathnameChars, if_neg (Bool.false_ne_true), if_true, ite_true, if_false, ite_false, Bool.false_eq_true]
        rw [if_neg (by
          rw [hpp]
          intro hcon
          have := hcon.1
          simp [pathChars] at this)]
      · obtain ⟨s, rs, hrev, hsne⟩ := dropTrailingEmpties_last path hde
        have hOKde : ∀ x ∈ dropTrailingEmpties path, segOK x = true :=
          fun x hx => hpath x (dropTrailingEmpties_subset path x hx)
        have hpp : parsePathPortion (stripTrailing (pathChars path)) =
            dropTrailingEmpties path := by
          rw [hstrip]
          exact parsePathPortion_pathChars _ hde hOKde
        obtain ⟨y, hy, hyne⟩ := pathChars_getLast_of_rev (dropTrailingEmpties path)
          s rs hrev hsne (hOKde s (by
            rw [← List.mem_reverse, hrev]
            exact List.mem_cons_self _ _))
        unfold normRec UrlRec.setPath
        simp only [UrlRec.pathnameChars, if_neg (Bool.false_ne_true), if_true, ite_true, if_false, ite_false, Bool.false_eq_true]
        rw [if_neg (by
          rw [hpp]
          intro hcon
          rw [hy] at hcon
          have := hcon.2
          injection this with h3
          exact hyne (Or.inl h3))]
    · have h1 : normRec ⟨sch, host, port, path, rawP, false, q, f⟩ =
          ⟨sch, host, port, path, rawP, false, q, none⟩ := by
        unfold normRec UrlRec.setPath
        simp only [UrlRec.pathnameChars, if_neg (Bool.false_ne_true), if_true, ite_true, if_false, ite_false, Bool.false_eq_true]
        rw [if_neg hcond]
      rw [h1]
      unfold normRec UrlRec.setPath
      simp only [UrlRec.pathnameChars, if_neg (Bool.false_ne_true), if_true, ite_true, if_false, ite_false, Bool.false_eq_true]
      rw [if_neg hcond]

/-- Idempotence of the source's URL normalization, via the canonical-form
round trip: the output of a successful parse-normalize-serialize pass
re-parses to the same record, which the normalizer fixes. -/
theorem normalizeUrl_idem (s : String) :
    normalizeUrl (normalizeUrl s) = normalizeUrl s := by
  rcases hp : parseUrlChars s.toList with _ | u
  · have h1 : normalizeUrl s = s := by
      unfold normalizeUrl
      rw [hp]
    rw [h1]
    exact h1
  · have hwf := parse_WF _ _ hp
    have h1 : normalizeUrl s = String.mk (serializeChars (normRec u)) := by
      unfold normalizeUrl
      rw [hp]
    rw [h1]
    unfold normalizeUrl
    have h2 : (String.mk (serializeChars (normRec u))).toList =
        serializeChars (normRec u) := rfl
    rw [h2]
    rw [parse_serialize _ (normRec_WF u hwf)]
    show String.mk (serializeChars (normRec (normRec u))) =
      String.mk (serializeChars (normRec u))
    rw [normRec_idem u hwf]

/-- A string already in normalized form stays fixed; in particular every
output of `normalizeUrl` is a fixed point. -/
theorem normalizeUrl_fixed (s t : String) (h : normalizeUrl s = t) :
    normalizeUrl t = t := by
  rw [← h]
  exact normalizeUrl_idem s

/-! ### Resource Checker state lemmas -/

theorem alookup_cons_self {β : Type} (k : String) (v : β)
    (c : List (String × β)) : alookup k ((k, v) :: c) = some v := by
  unfold alookup
  rw [if_pos rfl]

theorem alookup_cons_ne {β : Type} (k k' : String) (v : β)
    (c : List (String × β)) (h : ¬ k' = k) :
    alookup k ((k', v) :: c) = alookup k c := by
  show (if k' = k then some v else alookup k c) = alookup k c
  rw [if_neg h]

theorem alookup_mem {β : Type} (k : String) (v : β) (c : List (String × β))
    (h : alookup k c = some v) : (k, v) ∈ c := by
  induction c with
  | nil => cases h
  | cons e rest ih =>
    rcases e with ⟨k', v'⟩
    by_cases hk : k' = k
    · subst hk
      rw [alookup_cons_self] at h
      injection h with h2
      subst h2
      exact List.mem_cons_self _ _
    · rw [alookup_cons_ne _ _ _ _ hk] at h
      exact List.mem_cons_of_mem _ (ih h)

theorem alookup_of_mem_keys {β : Type} (k : String) (c : List (String × β))
    (h : k ∈ c.map Prod.fst) : ∃ v, alookup k c = some v := by
  induction c with
  | nil => cases h
  | cons e rest ih =>
    rcases e with ⟨k', v'⟩
    by_cases hk : k' = k
    · subst hk
      exact ⟨v', alookup_cons_self _ _ _⟩
    · rcases List.mem_cons.mp h with h1 | h1
      · exact absurd h1.symm hk
      · obtain ⟨v, hv⟩ := ih h1
        exact ⟨v, by rw [alookup_cons_ne _ _ _ _ hk]; exact hv⟩


theorem cacheSub_refl (c : List (String × CheckResult)) : cacheSub c c :=
  fun _ _ h => h

theorem cacheSub_trans {c1 c2 c3 : List (String × CheckResult)}
    (h1 : cacheSub c1 c2) (h2 : cacheSub c2 c3) : cacheSub c1 c3 :=
  fun k r h => h2 k r (h1 k r h)

theorem cacheSub_cons (c : List (String × CheckResult)) (k : String)
    (r : CheckResult) (h : alookup k c = none) : cacheSub c ((k, r) :: c) := by
  intro k' r' h'
  by_cases hk : k = k'
  · subst hk
    rw [h] at h'
    cases h'
  · rw [alookup_cons_ne _ _ _ _ hk]
    exact h'


theorem countHead_append (l1 l2 : List (String × Method)) (u : String) :
    countHead (l1 ++ l2) u = countHead l1 u + countHead l2 u := by
  unfold countHead
  exact List.countP_append _ _ _



/-- Case analysis of the fetch phase: the four outcomes of
HEAD-then-maybe-GET. -/
theorem fetchPhase_eq (net : Net) (nu : String) :
    (∃ e, net nu Method.head = FetchOutcome.failure e ∧
      fetchPhase net nu = (none, some e, [(nu, Method.head)])) ∨
    (∃ r, net nu Method.head = FetchOutcome.success r ∧
      ¬ ((!r.ok && decide (400 ≤ r.status)) = true) ∧
      fetchPhase net nu = (some r, none, [(nu, Method.head)])) ∨
    (∃ r r2, net nu Method.head = FetchOutcome.success r ∧
      (!r.ok && decide (400 ≤ r.status)) = true ∧
      net nu Method.get = FetchOutcome.success r2 ∧
      fetchPhase net nu = (some r2, none, [(nu, Method.head), (nu, Method.get)])) ∨
    (∃ r e2, net nu Method.head = FetchOutcome.success r ∧
      (!r.ok && decide (400 ≤ r.status)) = true ∧
      net nu Method.get = FetchOutcome.failure e2 ∧
      fetchPhase net nu = (some r, some e2, [(nu, Method.head), (nu, Method.get)])) := by
  rcases hh : net nu Method.head with r | e
  · by_cases hc : (!r.ok && decide (400 ≤ r.status)) = true
    · rcases hg : net nu Method.get with r2 | e2
      · refine Or.inr (Or.inr (Or.inl ⟨r, r2, rfl, hc, rfl, ?_⟩))
        simp only [fetchPhase, hh]
        rw [if_pos hc, hg]
      · refine Or.inr (Or.inr (Or.inr ⟨r, e2, rfl, hc, rfl, ?_⟩))
        simp only [fetchPhase, hh]
        rw [if_pos hc, hg]
    · refine Or.inr (Or.inl ⟨r, rfl, hc, ?_⟩)
      simp only [fetchPhase, hh]
      rw [if_neg hc]
  · refine Or.inl ⟨e, rfl, ?_⟩
    simp only [fetchPhase, hh]

theorem fetchPhase_probes (net : Net) (nu : String) :
    ∀ e ∈ (fetchPhase net nu).2.2, e.1 = nu := by
  rcases fetchPhase_eq net nu with ⟨e, _, hfp⟩ | ⟨r, _, _, hfp⟩ |
      ⟨r, r2, _, _, _, hfp⟩ | ⟨r, e2, _, _, _, hfp⟩ <;>
    rw [hfp] <;> intro x hx <;> simp only [List.mem_cons, List.mem_singleton] at hx
  · rcases hx with rfl | hx
    · rfl
    · cases hx
  · rcases hx with rfl | hx
    · rfl
    · cases hx
  · rcases hx with rfl | rfl | hx
    · rfl
    · rfl
    · cases hx
  · rcases hx with rfl | rfl | hx
    · rfl
    · rfl
    · cases hx

theorem fetchPhase_countHead (net : Net) (nu : String) :
    countHead (fetchPhase net nu).2.2 nu = 1 := by
  rcases fetchPhase_eq net nu with ⟨e, _, hfp⟩ | ⟨r, _, _, hfp⟩ |
      ⟨r, r2, _, _, _, hfp⟩ | ⟨r, e2, _, _, _, hfp⟩ <;>
    rw [hfp] <;> simp [countHead]

/-- Structure of one `checkLink` call: the result is cached at the
normalized key, old entries survive, and the log grows by probes for the
normalized key only, and only on a cache miss. -/
theorem checkLink_spec (net : Net) (ce : Bool) (st : CheckState)
    (url : String) (ext : Bool) :
    cacheSub st.cache (checkLink net ce st url ext).2.cache ∧
    alookup (normalizeUrl url) (checkLink net ce st url ext).2.cache =
      some (checkLink net ce st url ext).1 ∧
    ∃ ps, (checkLink net ce st url ext).2.log = st.log ++ ps ∧
      (∀ e ∈ ps, e.1 = normalizeUrl url) ∧
      (ps = [] ∨ (alookup (normalizeUrl url) st.cache = none ∧
        countHead ps (normalizeUrl url) = 1)) := by
  rcases hm : alookup (normalizeUrl url) st.cache with _ | r
  · by_cases hskip : (ext && !ce) = true
    · simp only [checkLink, hm]
      rw [if_pos hskip]
      refine ⟨cacheSub_cons _ _ _ hm, alookup_cons_self _ _ _,
        [], by simp, by simp, Or.inl rfl⟩
    · simp only [checkLink, hm]
      rw [if_neg hskip]
      rcases hfp : fetchPhase net (normalizeUrl url) with ⟨res, err, probes⟩
      have hprobes : ∀ e ∈ probes, e.1 = normalizeUrl url := by
        have := fetchPhase_probes net (normalizeUrl url)
        rw [hfp] at this
        exact this
      have hcount : countHead probes (normalizeUrl url) = 1 := by
        have := fetchPhase_countHead net (normalizeUrl url)
        rw [hfp] at this
        exact this
      rcases res with _ | r
      · exact ⟨cacheSub_cons _ _ _ hm, alookup_cons_self _ _ _,
          probes, rfl, hprobes, Or.inr ⟨by simp [hm], hcount⟩⟩
      · exact ⟨cacheSub_cons _ _ _ hm, alookup_cons_self _ _ _,
          probes, rfl, hprobes, Or.inr ⟨by simp [hm], hcount⟩⟩
  · simp only [checkLink, hm]
    exact ⟨cacheSub_refl _, by simp [hm], [], by simp, by simp, Or.inl rfl⟩

theorem checkLink_probeInv (net : Net) (ce : Bool) (st : CheckState)
    (url : String) (ext : Bool) (h : ProbeInv st) :
    ProbeInv (checkLink net ce st url ext).2 := by
  obtain ⟨hsub, hhit, ps, hlog, hps, hcase⟩ := checkLink_spec net ce st url ext
  intro u
  rcases hcase with rfl | ⟨hmiss, hcount⟩
  · rw [hlog, List.append_nil]
    constructor
    · exact (h u).1
    · intro hnone
      rcases hl : alookup u st.cache with _ | r
      · exact (h u).2 hl
      · have := hsub u r hl
        rw [this] at hnone
        cases hnone
  · rw [hlog, countHead_append]
    by_cases hu : u = normalizeUrl url
    · have h0 : countHead st.log (normalizeUrl url) = 0 := (h _).2 hmiss
      rw [hu]
      constructor
      · have h1 := hcount
        omega
      · intro hnone
        rw [hhit] at hnone
        cases hnone
    · have hz : countHead ps u = 0 := by
        unfold countHead
        rw [List.countP_eq_zero]
        intro e he
        have := hps e he
        simp only [Bool.and_eq_true, decide_eq_true_eq]
        intro hcon
        exact hu (hcon.1 ▸ this ▸ rfl)
      rw [hz]
      have h1 := (h u).1
      constructor
      · omega
      · intro hnone
        have hnone2 : alookup u st.cache = none := by
          rcases hl : alookup u st.cache with _ | r
          · rfl
          · have := hsub u r hl
            rw [this] at hnone
            cases hnone
        have := (h u).2 hnone2
        omega

theorem checkLink_extInv (net : Net) (st : CheckState) (url : String)
    (ext : Bool) (h : ExtInv st) :
    ExtInv (checkLink net false st url ext).2 := by
  rcases hm : alookup (normalizeUrl url) st.cache with _ | r
  · by_cases hskip : (ext && !false) = true
    · simp only [checkLink, hm]
      rw [if_pos hskip]
      constructor
      · intro k r hk hext
        by_cases hkey : normalizeUrl url = k
        · subst hkey
          rw [alookup_cons_self] at hk
          injection hk with hk2
          subst hk2
          exact ⟨rfl, rfl, rfl⟩
        · rw [alookup_cons_ne _ _ _ _ hkey] at hk
          exact h.1 k r hk hext
      · intro k m hk
        obtain ⟨r, hr, hre⟩ := h.2 k m hk
        refine ⟨r, ?_, hre⟩
        by_cases hkey : normalizeUrl url = k
        · subst hkey
          rw [hm] at hr
          cases hr
        · rw [alookup_cons_ne _ _ _ _ hkey]
          exact hr
    · simp only [checkLink, hm]
      rw [if_neg hskip]
      have hext2 : ext = false := by
        rcases hx : ext with _ | _
        · rfl
        · rw [hx] at hskip
          exact absurd rfl hskip
      subst hext2
      rcases hfp : fetchPhase net (normalizeUrl url) with ⟨res, err, probes⟩
      have hprobes : ∀ e ∈ probes, e.1 = normalizeUrl url := by
        have := fetchPhase_probes net (normalizeUrl url)
        rw [hfp] at this
        exact this
      have hmain : ∀ result : CheckResult, result.isExternal = false →
          ExtInv ⟨(normalizeUrl url, result) :: st.cache, st.log ++ probes⟩ := by
        intro result hres
        constructor
        · intro k r hk hext
          by_cases hkey : normalizeUrl url = k
          · subst hkey
            rw [alookup_cons_self] at hk
            injection hk with hk2
            subst hk2
            rw [hres] at hext
            cases hext
          · rw [alookup_cons_ne _ _ _ _ hkey] at hk
            exact h.1 k r hk hext
        · intro k m hk
          rcases List.mem_append.mp hk with h1 | h1
          · obtain ⟨r, hr, hre⟩ := h.2 k m h1
            refine ⟨r, ?_, hre⟩
            by_cases hkey : normalizeUrl url = k
            · subst hkey
              rw [hm] at hr
              cases hr
            · rw [alookup_cons_ne _ _ _ _ hkey]
              exact hr
          · have hke : k = normalizeUrl url := hprobes (k, m) h1
            subst hke
            exact ⟨result, alookup_cons_self _ _ _, hres⟩
      rcases res with _ | r
      · exact hmain _ rfl
      · exact hmain _ rfl
  · simp only [checkLink, hm]
    exact h

/-! ### Aggregator fold lemmas -/

theorem uniqFold_mem (l : List String) :
    ∀ (acc : List String) (u : String),
    u ∈ l.foldl (fun acc x => if x ∈ acc then acc else acc ++ [x]) acc ↔
      u ∈ acc ∨ u ∈ l := by
  induction l with
  | nil => intro acc u; simp
  | cons x xs ih =>
    intro acc u
    rw [List.foldl_cons]
    by_cases hx : x ∈ acc
    · rw [if_pos hx, ih]
      constructor
      · intro h
        rcases h with h | h
        · exact Or.inl h
        · exact Or.inr (List.mem_cons_of_mem x h)
      · intro h
        rcases h with h | h
        · exact Or.inl h
        · rcases List.mem_cons.mp h with rfl | h1
          · exact Or.inl hx
          · exact Or.inr h1
    · rw [if_neg hx, ih]
      constructor
      · intro h
        rcases h with h | h
        · rcases List.mem_append.mp h with h1 | h1
          · exact Or.inl h1
          · rcases List.mem_singleton.mp h1 with rfl
            exact Or.inr (List.mem_cons_self _ _)
        · exact Or.inr (List.mem_cons_of_mem x h)
      · intro h
        rcases h with h | h
        · exact Or.inl (List.mem_append.mpr (Or.inl h))
        · rcases List.mem_cons.mp h with rfl | h1
          · exact Or.inl (List.mem_append.mpr (Or.inr (List.mem_singleton.mpr rfl)))
          · exact Or.inr h1

theorem uniqFirst_mem (l : List String) (u : String) :
    u ∈ uniqFirst l ↔ u ∈ l := by
  unfold uniqFirst
  rw [uniqFold_mem]
  simp

theorem extractLinks_norm (baseUrl pageUrl : String) (hrefs : List String) :
    ∀ l ∈ extractLinks baseUrl pageUrl hrefs, normalizeUrl l.linkUrl = l.linkUrl := by
  intro l hl
  rcases List.mem_filterMap.mp hl with ⟨href, _, hx⟩
  unfold extractLink1 at hx
  by_cases h1 : href = ""
  · rw [if_pos h1] at hx; cases hx
  · rw [if_neg h1] at hx
    by_cases h2 : (strStartsWith href "mailto:" || strStartsWith href "tel:" ||
        strStartsWith href "#") = true
    · rw [if_pos h2] at hx; cases hx
    · rw [if_neg h2] at hx
      rcases habs : (if strStartsWith href "http" = true then some href
          else resolveUrl href pageUrl) with _ | absolute
      · rw [habs] at hx; cases hx
      · rw [habs] at hx
        simp only at hx
        injection hx with hx2
        subst hx2
        exact normalizeUrl_idem absolute

theorem resolveFold_spec (net : Net) (ce : Bool) (links : List LinkIn)
    (urls : List String) :
    ∀ acc : List (String × CheckResult) × CheckState,
    (∀ u ∈ urls, normalizeUrl u = u) →
    cacheSub acc.2.cache (urls.foldl (resolveStep net ce links) acc).2.cache ∧
    (urls.foldl (resolveStep net ce links) acc).1.map Prod.fst =
      acc.1.map Prod.fst ++ urls ∧
    ((∀ e ∈ acc.1, alookup e.1 acc.2.cache = some e.2) →
      ∀ e ∈ (urls.foldl (resolveStep net ce links) acc).1,
        alookup e.1 (urls.foldl (resolveStep net ce links) acc).2.cache = some e.2) ∧
    (ProbeInv acc.2 → ProbeInv (urls.foldl (resolveStep net ce links) acc).2) ∧
    (ce = false → ExtInv acc.2 → ExtInv (urls.foldl (resolveStep net ce links) acc).2) := by
  induction urls with
  | nil =>
    intro acc _
    exact ⟨cacheSub_refl _, by simp, fun h => h, fun h => h, fun _ h => h⟩
  | cons u urest ih =>
    intro acc hnorm
    have hnu : normalizeUrl u = u := hnorm u (List.mem_cons_self _ _)
    set ext := ((links.find? (fun l => l.linkUrl = u)).map
      (fun l => l.isExternal)).getD false with hext
    obtain ⟨hsub1, hhit1, ps, hlog1, hps1, hcase1⟩ :=
      checkLink_spec net ce acc.2 u ext
    rw [hnu] at hhit1
    have hstep : List.foldl (resolveStep net ce links) acc (u :: urest) =
        List.foldl (resolveStep net ce links)
          (acc.1 ++ [(u, (checkLink net ce acc.2 u ext).1)],
           (checkLink net ce acc.2 u ext).2) urest := by
      rw [List.foldl_cons]
      rfl
    rw [hstep]
    obtain ⟨ih1, ih2, ih3, ih4, ih5⟩ := ih
      (acc.1 ++ [(u, (checkLink net ce acc.2 u ext).1)],
       (checkLink net ce acc.2 u ext).2)
      (fun v hv => hnorm v (List.mem_cons_of_mem u hv))
    refine ⟨cacheSub_trans hsub1 ih1, by simpa using ih2, ?_, ?_, ?_⟩
    · intro hacc
      apply ih3
      intro e he
      rcases List.mem_append.mp he with h1 | h1
      · exact hsub1 e.1 e.2 (hacc e h1)
      · rcases List.mem_singleton.mp h1 with rfl
        exact hhit1
    · intro hp
      exact ih4 (checkLink_probeInv net ce acc.2 u ext hp)
    · intro hce hx
      subst hce
      exact ih5 rfl (checkLink_extInv net acc.2 u ext hx)

theorem resolveResults_spec (net : Net) (ce : Bool) (st : CheckState)
    (links : List LinkIn)
    (hnorm : ∀ l ∈ links, normalizeUrl l.linkUrl = l.linkUrl) :
    cacheSub st.cache (resolveResults net ce st links).2.cache ∧
    (∀ e ∈ (resolveResults net ce st links).1,
      alookup e.1 (resolveResults net ce st links).2.cache = some e.2) ∧
    (resolveResults net ce st links).1.map Prod.fst =
      uniqFirst (links.map (fun l => l.linkUrl)) ∧
    (ProbeInv st → ProbeInv (resolveResults net ce st links).2) ∧
    (ce = false → ExtInv st → ExtInv (resolveResults net ce st links).2) := by
  have hnormu : ∀ u ∈ uniqFirst (links.map (fun l => l.linkUrl)),
      normalizeUrl u = u := by
    intro u hu
    rcases List.mem_map.mp ((uniqFirst_mem _ _).mp hu) with ⟨l, hl, rfl⟩
    exact hnorm l hl
  obtain ⟨h1, h2, h3, h4, h5⟩ := resolveFold_spec net ce links
    (uniqFirst (links.map (fun l => l.linkUrl))) ([], st) hnormu
  exact ⟨h1, fun e he => h3 (by simp) e he, by simpa using h2, h4, h5⟩

/-- The evaluated link attached to an extracted link: its recorded
CheckResult is the final cache entry at its (normalized) target. -/
theorem evaluated_cached (net : Net) (ce : Bool) (st : CheckState)
    (links : List LinkIn)
    (hnorm : ∀ l ∈ links, normalizeUrl l.linkUrl = l.linkUrl)
    (l : LinkIn) (hl : l ∈ links) :
    alookup l.linkUrl (resolveResults net ce st links).2.cache =
      some ((alookup l.linkUrl (resolveResults net ce st links).1).getD dummyResult) := by
  obtain ⟨_, h2, h3, _, _⟩ := resolveResults_spec net ce st links hnorm
  have hmemk : l.linkUrl ∈ (resolveResults net ce st links).1.map Prod.fst := by
    rw [h3, uniqFirst_mem]
    exact List.mem_map.mpr ⟨l, hl, rfl⟩
  obtain ⟨r, hr⟩ := alookup_of_mem_keys _ _ hmemk
  rw [hr]
  exact h2 (l.linkUrl, r) (alookup_mem _ _ _ hr)

theorem mkLinkOut_result (l : LinkIn) (r : CheckResult) :
    (mkLinkOut l r).result = r := rfl

theorem syntheticLink_not_skipped (p e : String) :
    (syntheticLink p e).skipped = false := rfl


theorem stepPage_spec (net : Net) (pageNet : PageNet) (ce : Bool)
    (base : String) (acc : List PageRecord × Nat × CheckState) (p : String)
    (h : AuditInv pageNet acc) :
    AuditInv pageNet (stepPage net pageNet ce base acc p) ∧
    cacheSub acc.2.2.cache (stepPage net pageNet ce base acc p).2.2.cache ∧
    (ProbeInv acc.2.2 → ProbeInv (stepPage net pageNet ce base acc p).2.2) ∧
    (ce = false → ExtInv acc.2.2 →
      ExtInv (stepPage net pageNet ce base acc p).2.2) ∧
    ∃ rec, (stepPage net pageNet ce base acc p).1 = acc.1 ++ [rec] ∧
      rec.url = p ∧
      (∀ e, pageNet p = Except.error e →
        rec = ⟨p, [syntheticLink p e]⟩) := by
  obtain ⟨hInv1, hInv2, hInv3⟩ := h
  rcases hpn : pageNet p with e | hrefs
  · constructor
    · refine ⟨?_, ?_, ?_⟩ <;> simp only [stepPage, hpn]
      · intro rec hrec hok l hl
        rcases List.mem_append.mp hrec with h1 | h1
        · exact hInv1 rec h1 hok l hl
        · rcases List.mem_singleton.mp h1 with rfl
          obtain ⟨hs, hcon⟩ := hok
          simp only at hcon
          rw [hpn] at hcon
          cases hcon
      · intro rec hrec l hl hext
        rcases List.mem_append.mp hrec with h1 | h1
        · exact hInv2 rec h1 l hl hext
        · rcases List.mem_singleton.mp h1 with rfl
          rcases List.mem_singleton.mp hl with rfl
          cases hext
      · rw [hInv3]
        simp [syntheticLink]
    · refine ⟨?_, ?_, ?_, ?_⟩ <;> simp only [stepPage, hpn]
      · exact cacheSub_refl _
      · exact fun hp => hp
      · exact fun _ hx => hx
      · exact ⟨⟨p, [syntheticLink p e]⟩, rfl, rfl, fun e' he' => by
          injection he' with he2
          rw [he2]⟩
  · have hnorm := extractLinks_norm base p hrefs
    have hrr := resolveResults_spec net ce acc.2.2 (extractLinks base p hrefs) hnorm
    have hcached : ∀ l ∈ (extractLinks base p hrefs).map
        (fun l => mkLinkOut l
          ((alookup l.linkUrl (resolveResults net ce acc.2.2
            (extractLinks base p hrefs)).1).getD dummyResult)),
        alookup l.linkUrl (resolveResults net ce acc.2.2
          (extractLinks base p hrefs)).2.cache = some l.result := by
      intro l hl
      rcases List.mem_map.mp hl with ⟨l0, hl0, rfl⟩
      exact evaluated_cached net ce acc.2.2 _ hnorm l0 hl0
    constructor
    · refine ⟨?_, ?_, ?_⟩ <;> simp only [stepPage, hpn]
      · intro rec hrec hok l hl
        rcases List.mem_append.mp hrec with h1 | h1
        · exact hrr.1 _ _ (hInv1 rec h1 hok l hl)
        · rcases List.mem_singleton.mp h1 with rfl
          exact hcached l hl
      · intro rec hrec l hl hext
        rcases List.mem_append.mp hrec with h1 | h1
        · exact hrr.1 _ _ (hInv2 rec h1 l hl hext)
        · rcases List.mem_singleton.mp h1 with rfl
          exact hcached l hl
      · rw [hInv3]
        simp
    · refine ⟨?_, ?_, ?_, ?_⟩ <;> simp only [stepPage, hpn]
      · exact hrr.1
      · exact hrr.2.2.2.1
      · exact hrr.2.2.2.2
      · exact ⟨_, rfl, rfl, fun e' he' => Except.noConfusion he'⟩

theorem runFold_spec (net : Net) (pageNet : PageNet) (ce : Bool)
    (base : String) (pages : List String) :
    ∀ acc, AuditInv pageNet acc →
    AuditInv pageNet (pages.foldl (stepPage net pageNet ce base) acc) ∧
    cacheSub acc.2.2.cache
      (pages.foldl (stepPage net pageNet ce base) acc).2.2.cache ∧
    (ProbeInv acc.2.2 →
      ProbeInv (pages.foldl (stepPage net pageNet ce base) acc).2.2) ∧
    (ce = false → ExtInv acc.2.2 →
      ExtInv (pages.foldl (stepPage net pageNet ce base) acc).2.2) ∧
    (pages.foldl (stepPage net pageNet ce base) acc).1.length =
      acc.1.length + pages.length ∧
    (∃ suffix, (pages.foldl (stepPage net pageNet ce base) acc).1 =
      acc.1 ++ suffix) ∧
    (∀ i (hi : i < pages.length) e,
      pageNet pages[i] = Except.error e →
      (pages.foldl (stepPage net pageNet ce base) acc).1[acc.1.length + i]? =
        some ⟨pages[i], [syntheticLink pages[i] e]⟩) := by
  induction pages with
  | nil =>
    intro acc hInv
    refine ⟨hInv, cacheSub_refl _, fun hp => hp, fun _ hx => hx, by simp,
      ⟨[], by simp⟩, ?_⟩
    intro i hi
    cases hi
  | cons p rest ih =>
    intro acc hInv
    obtain ⟨hInv1, hsub1, hp1, hx1, ⟨rec, hrec, hrecurl, hrecerr⟩⟩ :=
      stepPage_spec net pageNet ce base acc p hInv
    have hfold : (p :: rest).foldl (stepPage net pageNet ce base) acc =
        rest.foldl (stepPage net pageNet ce base)
          (stepPage net pageNet ce base acc p) := by
      rw [List.foldl_cons]
    rw [hfold]
    obtain ⟨ih1, ih2, ih3, ih4, ih5, ⟨suffix, hsuffix⟩, ih7⟩ :=
      ih (stepPage net pageNet ce base acc p) hInv1
    have hlen1 : (stepPage net pageNet ce base acc p).1.length =
        acc.1.length + 1 := by
      rw [hrec]
      simp
    refine ⟨ih1, cacheSub_trans hsub1 ih2, fun hp => ih3 (hp1 hp),
      fun hce hx => ih4 hce (hx1 hce hx),
      by rw [ih5, hlen1, List.length_cons]; omega,
      ⟨rec :: suffix, by rw [hsuffix, hrec]; simp⟩, ?_⟩
    intro i hi e he
    cases i with
    | zero =>
      have hget : (p :: rest)[0] = p := rfl
      rw [hget] at he ⊢
      rw [hsuffix, hrec]
      have hrece := hrecerr e he
      rw [List.append_assoc]
      rw [show acc.1.length + 0 = acc.1.length from rfl]
      rw [List.getElem?_append_right (by omega)]
      rw [Nat.sub_self]
      simp [hrece]
    | succ j =>
      have hj : j < rest.length := by
        rw [List.length_cons] at hi
        omega
      have hget : (p :: rest)[j + 1] = rest[j] := by
        simp
      rw [hget] at he ⊢
      have hres := ih7 j hj e he
      rw [hlen1] at hres
      rw [show acc.1.length + (j + 1) = acc.1.length + 1 + j by omega]
      exact hres

/-! ### Crawl loop lemmas -/

theorem crawlHref_props (baseUrl pageUrl href n : String)
    (h : crawlHref baseUrl pageUrl href = some n) :
    normalizeUrl n = n ∧ isInternal baseUrl n = true := by
  unfold crawlHref at h
  by_cases h1 : href = ""
  · rw [if_pos h1] at h; cases h
  · rw [if_neg h1] at h
    by_cases h2 : (strStartsWith href "mailto:" || strStartsWith href "tel:" ||
        strStartsWith href "#") = true
    · rw [if_pos h2] at h; cases h
    · rw [if_neg h2] at h
      rcases habs : (if strStartsWith href "http" = true then some href
          else resolveUrl href pageUrl) with _ | absolute
      · rw [habs] at h; cases h
      · rw [habs] at h
        simp only at h
        by_cases h3 : isInternal baseUrl absolute = true
        · rw [if_neg (by simp [h3])] at h
          injection h with h4
          subst h4
          refine ⟨normalizeUrl_idem absolute, ?_⟩
          unfold isInternal at h3 ⊢
          rwa [normalizeUrl_idem absolute]
        · rw [if_pos (by simpa using h3)] at h
          cases h

theorem enqueueHrefs_mem (baseUrl pageUrl : String) (vis tv : List String)
    (hrefs : List String) :
    ∀ u ∈ enqueueHrefs baseUrl pageUrl vis tv hrefs,
      u ∈ tv ∨ ∃ href, crawlHref baseUrl pageUrl href = some u := by
  unfold enqueueHrefs
  induction hrefs generalizing tv with
  | nil => exact fun u hu => Or.inl hu
  | cons href rest ih =>
    intro u hu
    rw [List.foldl_cons] at hu
    rcases hch : crawlHref baseUrl pageUrl href with _ | n
    · simp only [hch] at hu
      exact ih tv u hu
    · simp only [hch] at hu
      by_cases hin : n ∈ vis ∨ n ∈ tv
      · rw [if_pos hin] at hu
        exact ih tv u hu
      · rw [if_neg hin] at hu
        rcases ih (tv ++ [n]) u hu with h1 | h1
        · rcases List.mem_append.mp h1 with h2 | h2
          · exact Or.inl h2
          · rcases List.mem_singleton.mp h2 with rfl
            exact Or.inr ⟨href, hch⟩
        · exact Or.inr h1

theorem enqueueHrefs_nodup (baseUrl pageUrl : String) (vis tv : List String)
    (hrefs : List String) (h : (tv ++ vis).Nodup) :
    (enqueueHrefs baseUrl pageUrl vis tv hrefs ++ vis).Nodup := by
  unfold enqueueHrefs
  induction hrefs generalizing tv with
  | nil => exact h
  | cons href rest ih =>
    rw [List.foldl_cons]
    rcases hch : crawlHref baseUrl pageUrl href with _ | n
    · simp only [hch]
      exact ih tv h
    · simp only [hch]
      by_cases hin : n ∈ vis ∨ n ∈ tv
      · rw [if_pos hin]
        exact ih tv h
      · rw [if_neg hin]
        apply ih (tv ++ [n])
        have hperm : (tv ++ [n] ++ vis).Perm (n :: (tv ++ vis)) := by
          calc (tv ++ [n] ++ vis).Perm (([n] ++ tv) ++ vis) :=
                (List.perm_append_comm.append_right vis)
            _ = n :: (tv ++ vis) := by simp
        apply hperm.nodup_iff.mpr
        refine List.Nodup.cons ?_ h
        intro hcon
        rcases List.mem_append.mp hcon with h2 | h2
        · exact hin (Or.inr h2)
        · exact hin (Or.inl h2)

theorem crawlLoop_pres (net : CrawlNet) (baseUrl : String) (P : String → Prop)
    (hP : ∀ pageUrl href n, crawlHref baseUrl pageUrl href = some n → P n) :
    ∀ fuel tv vis, (∀ u ∈ tv, P u) → (∀ u ∈ vis, P u) →
    ∀ u ∈ crawlLoop net baseUrl fuel tv vis, P u := by
  intro fuel
  induction fuel with
  | zero => exact fun tv vis _ hvis => hvis
  | succ f ih =>
    intro tv vis htv hvis
    rcases tv with _ | ⟨url, tvRest⟩
    · exact hvis
    · have hurl : P url := htv url (List.mem_cons_self _ _)
      have htvRest : ∀ u ∈ tvRest, P u :=
        fun u hu => htv u (List.mem_cons_of_mem _ hu)
      have hvis2 : ∀ u ∈ vis ++ [url], P u := by
        intro u hu
        rcases List.mem_append.mp hu with h1 | h1
        · exact hvis u h1
        · rcases List.mem_singleton.mp h1 with rfl
          exact hurl
      show ∀ u ∈ crawlLoop net baseUrl (f + 1) (url :: tvRest) vis, P u
      rw [crawlLoop]
      rcases hnet : net url with _ | page
      · exact ih tvRest (vis ++ [url]) htvRest hvis2
      · simp only
        by_cases hct : containsSub "text/html".toList page.contentType.toList = true
        · rw [if_pos hct]
          apply ih _ _ ?_ hvis2
          intro u hu
          rcases enqueueHrefs_mem baseUrl url (vis ++ [url]) tvRest page.hrefs
              u hu with h1 | ⟨href, hch⟩
          · exact htvRest u h1
          · exact hP url href u hch
        · rw [if_neg hct]
          exact ih tvRest (vis ++ [url]) htvRest hvis2

theorem crawlLoop_nodup (net : CrawlNet) (baseUrl : String) :
    ∀ fuel tv vis, (tv ++ vis).Nodup →
    (crawlLoop net baseUrl fuel tv vis).Nodup := by
  intro fuel
  induction fuel with
  | zero =>
    intro tv vis h
    exact (List.nodup_append.mp h).2.1
  | succ f ih =>
    intro tv vis h
    rcases tv with _ | ⟨url, tvRest⟩
    · exact (List.nodup_append.mp h).2.1
    · have hperm : (tvRest ++ (vis ++ [url])).Perm ((url :: tvRest) ++ vis) := by
        have h1 : tvRest ++ (vis ++ [url]) = (tvRest ++ vis) ++ [url] := by simp
        rw [h1]
        have h2 := List.perm_append_singleton url (tvRest ++ vis)
        simpa using h2
      have hnd : (tvRest ++ (vis ++ [url])).Nodup := hperm.symm.nodup h
      show (crawlLoop net baseUrl (f + 1) (url :: tvRest) vis).Nodup
      rw [crawlLoop]
      rcases hnet : net url with _ | page
      · exact ih tvRest (vis ++ [url]) hnd
      · simp only
        by_cases hct : containsSub "text/html".toList page.contentType.toList = true
        · rw [if_pos hct]
          exact ih _ _
            (enqueueHrefs_nodup baseUrl url (vis ++ [url]) tvRest page.hrefs hnd)
        · rw [if_neg hct]
          exact ih tvRest (vis ++ [url]) hnd


/-! ### Crawl-level corollaries -/

theorem crawl_pres (net : CrawlNet) (baseUrl : String) (fuel : Nat) :
    ∀ u ∈ crawl net baseUrl fuel,
      u = baseUrl ∨ (normalizeUrl u = u ∧ isInternal baseUrl u = true) := by
  intro u hu
  have hperm := List.perm_insertionSort (fun a b => strLe a b = true)
    (crawlLoop net baseUrl fuel [baseUrl] [])
  have hu2 : u ∈ crawlLoop net baseUrl fuel [baseUrl] [] := hperm.mem_iff.mp hu
  refine crawlLoop_pres net baseUrl
    (fun v => v = baseUrl ∨ (normalizeUrl v = v ∧ isInternal baseUrl v = true))
    (fun p h n hc => Or.inr (crawlHref_props baseUrl p h n hc))
    fuel [baseUrl] [] ?_ ?_ u hu2
  · intro v hv
    rcases List.mem_singleton.mp hv with rfl
    exact Or.inl rfl
  · intro v hv
    exact absurd hv (List.not_mem_nil v)

theorem crawl_nodup (net : CrawlNet) (baseUrl : String) (fuel : Nat) :
    (crawl net baseUrl fuel).Nodup := by
  have hperm := List.perm_insertionSort (fun a b => strLe a b = true)
    (crawlLoop net baseUrl fuel [baseUrl] [])
  exact hperm.nodup_iff.mpr (crawlLoop_nodup net baseUrl fuel [baseUrl] [] (by simp))

/-! ### The claims -/

/-- C6: `normalizeUrl` is idempotent on every string input, including the
ones that fail to parse (those are returned unchanged, and fail to parse
again). -/
theorem normalizeUrl_idempotent (s : String) :
    normalizeUrl (normalizeUrl s) = normalizeUrl s :=
  normalizeUrl_idem s

/-- C9: every URL the crawl loop enqueues on the frontier (beyond what was
already there) is the image of some href under `crawlHref`, hence a
normalized internal URL; consequently every entry of the returned sorted
visited list, except possibly the seed itself, is normalized and
internal. -/
theorem crawl_frontier_normalized_internal (net : CrawlNet) (baseUrl : String) :
    (∀ pageUrl vis tv hrefs,
      ∀ u ∈ enqueueHrefs baseUrl pageUrl vis tv hrefs,
        u ∈ tv ∨ (normalizeUrl u = u ∧ isInternal baseUrl u = true)) ∧
    (∀ fuel, ∀ u ∈ crawl net baseUrl fuel,
      u = baseUrl ∨ (normalizeUrl u = u ∧ isInternal baseUrl u = true)) := by
  constructor
  · intro pageUrl vis tv hrefs u hu
    rcases enqueueHrefs_mem baseUrl pageUrl vis tv hrefs u hu with h | ⟨href, hch⟩
    · exact Or.inl h
    · exact Or.inr (crawlHref_props baseUrl pageUrl href u hch)
  · exact fun fuel => crawl_pres net baseUrl fuel

/-- C9 (instance): on the trailing-slash site, the crawled entry
`http://s.example/a` distinct from the seed is normalized and internal. -/
theorem crawl_frontier_normalized_internal_inst :
    "http://s.example/a" = "http://s.example/a/" ∨
      (normalizeUrl "http://s.example/a" = "http://s.example/a" ∧
        isInternal "http://s.example/a/" "http://s.example/a" = true) :=
  (crawl_frontier_normalized_internal netSlash "http://s.example/a/").2 3
    "http://s.example/a" (by decide)

/-- C2: amended.  The visited list the crawler returns is duplicate-free as
a set of exact strings, and — provided the seed base URL is itself in
normalized form — no two of its entries share a normalized form.  The
seed is enqueued raw, so a base URL that is not a normalization fixpoint
can be visited alongside its normalized variant (see the counterexample),
which is the only departure from the spec's per-normalized-URL claim. -/
theorem crawl_visits_each_once (net : CrawlNet) (baseUrl : String) (fuel : Nat) :
    (crawl net baseUrl fuel).Nodup ∧
    (normalizeUrl baseUrl = baseUrl →
      (crawl net baseUrl fuel).Pairwise
        (fun a b => ¬ normalizeUrl a = normalizeUrl b)) := by
  refine ⟨crawl_nodup net baseUrl fuel, ?_⟩
  intro hbase
  have hfix : ∀ u ∈ crawl net baseUrl fuel, normalizeUrl u = u := by
    intro u hu
    rcases crawl_pres net baseUrl fuel u hu with rfl | ⟨h1, _⟩
    · exact hbase
    · exact h1
  have hnd : (crawl net baseUrl fuel).Pairwise (fun a b => a ≠ b) :=
    crawl_nodup net baseUrl fuel
  refine List.Pairwise.imp_of_mem ?_ hnd
  intro a b ha hb hne hcon
  exact hne (by rw [← hfix a ha, ← hfix b hb, hcon])

/-- C2 (instance): a site whose root page cites one target under two
spellings; the crawl visits the target once and the visited entries have
pairwise distinct normalized forms. -/
theorem crawl_visits_each_once_inst :
    (crawl netC2w "http://s.example/" 3).Pairwise
      (fun a b => ¬ normalizeUrl a = normalizeUrl b) :=
  (crawl_visits_each_once netC2w "http://s.example/" 3).2 rfl

/-- C2 (counterexample): the seed is enqueued without normalization, so
crawling from the non-normalized base `http://s.example/a/` visits both
that spelling and its normalized form `http://s.example/a` — two visited
entries with the same normalized form, against the spec's "visits each
normalized URL exactly once". -/
theorem crawl_unnormalized_seed_revisit :
    crawl netSlash "http://s.example/a/" 3 =
      ["http://s.example/a", "http://s.example/a/"] ∧
    normalizeUrl "http://s.example/a/" = normalizeUrl "http://s.example/a" ∧
    ¬ ("http://s.example/a/" : String) = "http://s.example/a" :=
  ⟨rfl, rfl, by decide⟩


/-- C1: amended.  On a cache miss that is not short-circuited as a skipped
external link, `checkLink` issues a HEAD probe first.  A GET retry follows
exactly when the HEAD *response* arrives not ok with status at least 400
(so a server answering 405 to HEAD and 200 to GET yields ok = true); a
HEAD request that fails outright (network error / timeout) is NOT retried
— the catch block swallows the rejection, no GET is issued, and the check
resolves broken with ok = false and status 0, carrying the error
message. -/
theorem checkLink_head_get_fallback (net : Net) (ce : Bool) (st : CheckState)
    (url : String) (ext : Bool)
    (hmiss : alookup (normalizeUrl url) st.cache = none)
    (hskip : (ext && !ce) = false) :
    (∀ r, net (normalizeUrl url) Method.head = FetchOutcome.success r →
      (!r.ok && decide (400 ≤ r.status)) = true →
      (checkLink net ce st url ext).2.log =
        st.log ++ [(normalizeUrl url, Method.head), (normalizeUrl url, Method.get)] ∧
      (∀ r2, net (normalizeUrl url) Method.get = FetchOutcome.success r2 →
        (checkLink net ce st url ext).1.ok = r2.ok ∧
        (checkLink net ce st url ext).1.status = r2.status)) ∧
    (∀ r, net (normalizeUrl url) Method.head = FetchOutcome.success r →
      (!r.ok && decide (400 ≤ r.status)) = false →
      (checkLink net ce st url ext).2.log =
        st.log ++ [(normalizeUrl url, Method.head)] ∧
      (checkLink net ce st url ext).1.ok = r.ok ∧
      (checkLink net ce st url ext).1.status = r.status) ∧
    (∀ e, net (normalizeUrl url) Method.head = FetchOutcome.failure e →
      (checkLink net ce st url ext).2.log =
        st.log ++ [(normalizeUrl url, Method.head)] ∧
      (checkLink net ce st url ext).1.ok = false ∧
      (checkLink net ce st url ext).1.status = 0 ∧
      (checkLink net ce st url ext).1.error = some (errMessage (some e))) := by
  refine ⟨?_, ?_, ?_⟩
  · intro r hr hc
    rcases hg : net (normalizeUrl url) Method.get with r2 | e2
    · have hfp : fetchPhase net (normalizeUrl url) =
          (some r2, none, [(normalizeUrl url, Method.head),
            (normalizeUrl url, Method.get)]) := by
        simp only [fetchPhase, hr]
        rw [if_pos hc, hg]
      simp only [checkLink, hmiss]
      rw [if_neg (by simp [hskip])]
      simp only [hfp]
      refine ⟨trivial, ?_⟩
      intro r2' hr2'
      injection hr2' with h2
      rw [← h2]
      exact ⟨rfl, rfl⟩
    · have hfp : fetchPhase net (normalizeUrl url) =
          (some r, some e2, [(normalizeUrl url, Method.head),
            (normalizeUrl url, Method.get)]) := by
        simp only [fetchPhase, hr]
        rw [if_pos hc, hg]
      simp only [checkLink, hmiss]
      rw [if_neg (by simp [hskip])]
      simp only [hfp]
      refine ⟨trivial, ?_⟩
      intro r2' hr2'
      cases hr2'
  · intro r hr hc
    have hfp : fetchPhase net (normalizeUrl url) =
        (some r, none, [(normalizeUrl url, Method.head)]) := by
      simp only [fetchPhase, hr]
      rw [if_neg (by simp [hc])]
    simp only [checkLink, hmiss]
    rw [if_neg (by simp [hskip])]
    simp only [hfp]
    exact ⟨trivial, trivial, trivial⟩
  · intro e hr
    have hfp : fetchPhase net (normalizeUrl url) =
        (none, some e, [(normalizeUrl url, Method.head)]) := by
      simp only [fetchPhase, hr]
    simp only [checkLink, hmiss]
    rw [if_neg (by simp [hskip])]
    simp only [hfp]
    exact ⟨trivial, trivial, trivial, trivial⟩

/-- C1 (instance): against a server answering 405 to HEAD and 200 to GET,
the check issues HEAD then GET and reports ok = true with status 200. -/
theorem checkLink_head_get_fallback_inst :
    (checkLink net405 true emptyState "http://x.example/a" false).1.ok = true ∧
    (checkLink net405 true emptyState "http://x.example/a" false).1.status = 200 ∧
    (checkLink net405 true emptyState "http://x.example/a" false).2.log =
      [("http://x.example/a", Method.head), ("http://x.example/a", Method.get)] := by
  obtain ⟨h1, _, _⟩ := checkLink_head_get_fallback net405 true emptyState
    "http://x.example/a" false rfl rfl
  obtain ⟨hlog, hok⟩ := h1 ⟨405, "http://x.example/a"⟩ rfl (by decide)
  obtain ⟨ho, hs⟩ := hok ⟨200, "http://x.example/a"⟩ rfl
  exact ⟨ho.trans (by decide), hs.trans rfl, hlog.trans rfl⟩

/-- C1 (counterexample): a server whose HEAD handler rejects outright while
its GET handler would answer 200.  The spec promises a GET retry when "the
HEAD request failed outright"; in the code the catch swallows the HEAD
rejection without retrying, so the probe log holds no GET and the link is
reported broken. -/
theorem checkLink_head_failure_no_retry :
    (checkLink netHeadFails true emptyState "http://x.example/" false).1.ok = false ∧
    (checkLink netHeadFails true emptyState "http://x.example/" false).1.status = 0 ∧
    (checkLink netHeadFails true emptyState "http://x.example/" false).1.error =
      some "socket hang up" ∧
    (checkLink netHeadFails true emptyState "http://x.example/" false).2.log =
      [("http://x.example/", Method.head)] ∧
    netHeadFails "http://x.example/" Method.get =
      FetchOutcome.success ⟨200, "http://x.example/"⟩ :=
  ⟨rfl, rfl, rfl, rfl, rfl⟩


/-- C3: across a whole audit run, the Resource Checker issues at most one
HEAD probe per URL (the first caller's CheckResult is cached by normalized
URL and reused), and any two link records on fetched pages that reference
the same target URL carry identical CheckResults. -/
theorem audit_probe_once_cache_coherent (net : Net) (pageNet : PageNet)
    (ce : Bool) (base : String) (pages : List String) :
    (∀ u, countHead (runAudit net pageNet ce base pages).state.log u ≤ 1) ∧
    (∀ rec1 ∈ (runAudit net pageNet ce base pages).pages,
     ∀ rec2 ∈ (runAudit net pageNet ce base pages).pages,
      (∃ hs, pageNet rec1.url = Except.ok hs) →
      (∃ hs, pageNet rec2.url = Except.ok hs) →
      ∀ l1 ∈ rec1.links, ∀ l2 ∈ rec2.links, l1.linkUrl = l2.linkUrl →
        l1.result = l2.result) := by
  have hInit : AuditInv pageNet ([], 0, (⟨[], []⟩ : CheckState)) := by
    refine ⟨?_, ?_, rfl⟩
    · intro rec hrec
      exact absurd hrec (List.not_mem_nil rec)
    · intro rec hrec
      exact absurd hrec (List.not_mem_nil rec)
  obtain ⟨hInv, _, hProbe, _, _, _, _⟩ :=
    runFold_spec net pageNet ce base pages ([], 0, ⟨[], []⟩) hInit
  have hpages : (runAudit net pageNet ce base pages).pages =
      (pages.foldl (stepPage net pageNet ce base) ([], 0, ⟨[], []⟩)).1 := rfl
  have hstate : (runAudit net pageNet ce base pages).state =
      (pages.foldl (stepPage net pageNet ce base) ([], 0, ⟨[], []⟩)).2.2 := rfl
  constructor
  · intro u
    rw [hstate]
    have hP0 : ProbeInv (⟨[], []⟩ : CheckState) := by
      intro u
      exact ⟨by simp [countHead], fun _ => by simp [countHead]⟩
    exact (hProbe hP0 u).1
  · intro rec1 hrec1 rec2 hrec2 hok1 hok2 l1 hl1 l2 hl2 heq
    rw [hpages] at hrec1 hrec2
    have h1 := hInv.1 rec1 hrec1 hok1 l1 hl1
    have h2 := hInv.1 rec2 hrec2 hok2 l2 hl2
    rw [heq] at h1
    rw [h1] at h2
    injection h2

/-- C3 (instance): two pages referencing the same internal target produce a
single HEAD probe for it. -/
theorem audit_probe_once_cache_coherent_inst :
    countHead (runAudit netOk pnC3 true "http://s.example/"
      ["http://s.example/p1", "http://s.example/p2"]).state.log
      "http://s.example/t" ≤ 1 :=
  (audit_probe_once_cache_coherent netOk pnC3 true "http://s.example/"
    ["http://s.example/p1", "http://s.example/p2"]).1 "http://s.example/t"

/-- C4: a link record is in the run's broken list exactly when it is not ok
and not skipped (regardless of its internal/external tag), and the exit
code is 0 when that list is empty and 1 otherwise. -/
theorem broken_iff_not_ok_not_skipped (net : Net) (pageNet : PageNet)
    (ce : Bool) (base : String) (pages : List String) :
    (∀ b, b ∈ (runAudit net pageNet ce base pages).broken ↔
      ∃ rec, rec ∈ (runAudit net pageNet ce base pages).pages ∧
        ∃ l, l ∈ rec.links ∧ l.ok = false ∧ l.skipped = false ∧
          b = mkBroken rec.url l) ∧
    ((runAudit net pageNet ce base pages).exitCode = 0 ↔
      (runAudit net pageNet ce base pages).broken = []) ∧
    ((runAudit net pageNet ce base pages).exitCode = 1 ↔
      ¬ (runAudit net pageNet ce base pages).broken = []) := by
  have hbroken : (runAudit net pageNet ce base pages).broken =
      ((pages.foldl (stepPage net pageNet ce base) ([], 0, ⟨[], []⟩)).1.map
        (fun page => (page.links.filter (fun l => !l.ok && !l.skipped)).map
          (mkBroken page.url))).flatten := rfl
  have hpages : (runAudit net pageNet ce base pages).pages =
      (pages.foldl (stepPage net pageNet ce base) ([], 0, ⟨[], []⟩)).1 := rfl
  have hexit : (runAudit net pageNet ce base pages).exitCode =
      if (runAudit net pageNet ce base pages).broken.length > 0 then 1 else 0 := rfl
  refine ⟨?_, ?_, ?_⟩
  · intro b
    rw [hbroken, hpages, List.mem_flatten]
    constructor
    · rintro ⟨lst, hlst, hb⟩
      rcases List.mem_map.mp hlst with ⟨rec, hrec, rfl⟩
      rcases List.mem_map.mp hb with ⟨l, hlmem, rfl⟩
      rcases List.mem_filter.mp hlmem with ⟨hl, hcond⟩
      simp only [Bool.and_eq_true, Bool.not_eq_true'] at hcond
      exact ⟨rec, hrec, l, hl, hcond.1, hcond.2, rfl⟩
    · rintro ⟨rec, hrec, l, hl, hok, hsk, rfl⟩
      exact ⟨_, List.mem_map.mpr ⟨rec, hrec, rfl⟩,
        List.mem_map.mpr ⟨l, List.mem_filter.mpr ⟨hl, by simp [hok, hsk]⟩, rfl⟩⟩
  · rw [hexit]
    rcases (runAudit net pageNet ce base pages).broken with _ | ⟨x, xs⟩
    · simp
    · simp
  · rw [hexit]
    rcases (runAudit net pageNet ce base pages).broken with _ | ⟨x, xs⟩
    · simp
    · simp

/-- C4 (instance): a run whose only page carries one confirmed-dead link
has that link in the broken list and exit code 1. -/
theorem broken_iff_not_ok_not_skipped_inst :
    ((runAudit netC7 pnC7 true "http://s.example/" ["http://s.example/p"]).exitCode = 1 ↔
      ¬ (runAudit netC7 pnC7 true "http://s.example/" ["http://s.example/p"]).broken = []) :=
  (broken_iff_not_ok_not_skipped netC7 pnC7 true "http://s.example/"
    ["http://s.example/p"]).2.2

/-- C5: with external checking disabled, a cache-missing external link is
answered by the skip record {ok := true, skipped := true, status := 0}
with no probe logged; run-wide, every link record tagged external reports
ok, skipped, status 0, and no URL it names was ever probed. -/
theorem external_skip_no_probe (net : Net) (st : CheckState) (url : String)
    (hmiss : alookup (normalizeUrl url) st.cache = none) :
    (checkLink net false st url true).1 =
      { url := normalizeUrl url, ok := true, status := 0,
        isExternal := true, skipped := true } ∧
    (checkLink net false st url true).2.log = st.log ∧
    ∀ (pageNet : PageNet) (base : String) (pages : List String),
      ∀ rec ∈ (runAudit net pageNet false base pages).pages,
      ∀ l ∈ rec.links, l.isExternal = true →
        l.ok = true ∧ l.skipped = true ∧ l.status = 0 ∧
        ∀ m, ¬ (l.linkUrl, m) ∈ (runAudit net pageNet false base pages).state.log := by
  refine ⟨?_, ?_, ?_⟩
  · simp only [checkLink, hmiss]
    rw [if_pos (show (true && !false) = true from rfl)]
  · simp only [checkLink, hmiss]
    rw [if_pos (show (true && !false) = true from rfl)]
  · intro pageNet base pages rec hrec l hl hext
    have hInit : AuditInv pageNet ([], 0, (⟨[], []⟩ : CheckState)) := by
      refine ⟨?_, ?_, rfl⟩
      · intro rec hrec
        exact absurd hrec (List.not_mem_nil rec)
      · intro rec hrec
        exact absurd hrec (List.not_mem_nil rec)
    obtain ⟨hInv, _, _, hExt, _, _, _⟩ :=
      runFold_spec net pageNet false base pages ([], 0, ⟨[], []⟩) hInit
    have hX0 : ExtInv (⟨[], []⟩ : CheckState) := by
      constructor
      · intro k r hk
        simp [alookup] at hk
      · intro k m hk
        exact absurd hk (List.not_mem_nil _)
    have hX := hExt rfl hX0
    have hpages : (runAudit net pageNet false base pages).pages =
        (pages.foldl (stepPage net pageNet false base) ([], 0, ⟨[], []⟩)).1 := rfl
    have hstate : (runAudit net pageNet false base pages).state =
        (pages.foldl (stepPage net pageNet false base) ([], 0, ⟨[], []⟩)).2.2 := rfl
    rw [hpages] at hrec
    have hcached := hInv.2.1 rec hrec l hl hext
    have hres : l.result.isExternal = true := hext
    obtain ⟨hok, hsk, hst⟩ := hX.1 l.linkUrl l.result hcached hres
    refine ⟨hok, hsk, hst, ?_⟩
    intro m hm
    rw [hstate] at hm
    obtain ⟨r, hr, hrint⟩ := hX.2 l.linkUrl m hm
    rw [hcached] at hr
    injection hr with hr2
    rw [← hr2] at hrint
    rw [hres] at hrint
    cases hrint

/-- C5 (instance): the skip record returned for an external link on a fresh
state, with the probe log untouched. -/
theorem external_skip_no_probe_inst :
    (checkLink netOk false emptyState "http://ext.example/x" true).1 =
      { url := "http://ext.example/x", ok := true, status := 0,
        isExternal := true, skipped := true } ∧
    (checkLink netOk false emptyState "http://ext.example/x" true).2.log = [] := by
  obtain ⟨h1, h2, _⟩ := external_skip_no_probe netOk emptyState
    "http://ext.example/x" rfl
  exact ⟨h1, h2⟩


/-- C7: amended.  `normalizeUrl` never throws: on an unparsable input it
returns the string unchanged.  At extraction time only the hrefs that are
resolved against the page (those not starting with "http") can throw and
be silently dropped; an href that starts with "http" is taken as-is even
when unparsable, so such a malformed link does flow into
`PageRecord.links` (see the counterexample). -/
theorem malformed_href_handling (s : String)
    (hbad : parseUrlChars s.toList = none) :
    normalizeUrl s = s ∧
    (strStartsWith s "http" = true → ¬ s = "" →
      (strStartsWith s "mailto:" || strStartsWith s "tel:" ||
        strStartsWith s "#") = false →
      ∀ base page, extractLink1 base page s =
        some { linkUrl := s, isExternal := ¬ isInternal base s }) ∧
    (∀ base page href, ¬ href = "" →
      (strStartsWith href "mailto:" || strStartsWith href "tel:" ||
        strStartsWith href "#") = false →
      strStartsWith href "http" = false →
      resolveUrl href page = none →
      extractLink1 base page href = none) := by
  have hnorm : normalizeUrl s = s := by
    unfold normalizeUrl
    rw [hbad]
  refine ⟨hnorm, ?_, ?_⟩
  · intro hp hne hfil base page
    unfold extractLink1
    rw [if_neg hne, if_neg (by simp [hfil]), if_pos hp]
    simp only
    rw [hnorm]
  · intro base page href hne hfil hp hres
    unfold extractLink1
    rw [if_neg hne, if_neg (by simp [hfil]), if_neg (by simp [hp]), hres]

/-- C7 (instance): an unparsable string passes `normalizeUrl` unchanged
(no exception to catch), and a relative href whose resolution against the
page throws is dropped at extraction time. -/
theorem malformed_href_handling_inst :
    normalizeUrl "http://bad host/x" = "http://bad host/x" ∧
    extractLink1 "http://s.example/" "http://s.example/p" "//" = none := by
  obtain ⟨h1, _, _⟩ := malformed_href_handling "http://bad host/x" rfl
  obtain ⟨_, _, h3⟩ := malformed_href_handling "//" rfl
  exact ⟨h1, h3 "http://s.example/" "http://s.example/p" "//" (by decide) rfl rfl rfl⟩

/-- C7 (counterexample): the unparsable href "http://bad host/x" starts
with "http", so it is kept verbatim, lands in the page's link records,
gets probed, fails, and is reported broken — against the spec's claim that
a malformed href is silently dropped, never appearing in
`PageRecord.links` nor reported as an issue. -/
theorem malformed_http_href_reported :
    (runAudit netC7 pnC7 true "http://s.example/" ["http://s.example/p"]).pages =
      [⟨"http://s.example/p",
        [{ linkUrl := "http://bad host/x", isExternal := true,
           url := "http://bad host/x", ok := false, status := 0,
           skipped := false, error := some "fetch failed", finalUrl := none }]⟩] ∧
    (runAudit netC7 pnC7 true "http://s.example/" ["http://s.example/p"]).broken =
      [{ pageUrl := "http://s.example/p", linkUrl := "http://bad host/x",
         status := 0, error := some "fetch failed", isExternal := true }] ∧
    (runAudit netC7 pnC7 true "http://s.example/" ["http://s.example/p"]).exitCode = 1 ∧
    parseUrlChars ("http://bad host/x".toList) = none :=
  ⟨rfl, rfl, rfl, rfl⟩

/-- C8: when an audited page itself cannot be fetched, the run records for
that page exactly one synthetic broken link pointing at the page (ok =
false, status 0, the error message, tagged internal), the page keeps its
position in the report, every other page is still processed, and the
synthetic link contributes to the broken list. -/
theorem page_failure_synthetic_link (net : Net) (pageNet : PageNet)
    (ce : Bool) (base : String) (pages : List String) (i : Nat)
    (hi : i < pages.length) (e : String)
    (he : pageNet pages[i] = Except.error e) :
    (runAudit net pageNet ce base pages).pages[i]? =
      some ⟨pages[i], [syntheticLink pages[i] e]⟩ ∧
    (runAudit net pageNet ce base pages).pages.length = pages.length ∧
    mkBroken pages[i] (syntheticLink pages[i] e) ∈
      (runAudit net pageNet ce base pages).broken := by
  have hInit : AuditInv pageNet ([], 0, (⟨[], []⟩ : CheckState)) := by
    refine ⟨?_, ?_, rfl⟩
    · intro rec hrec
      exact absurd hrec (List.not_mem_nil rec)
    · intro rec hrec
      exact absurd hrec (List.not_mem_nil rec)
  obtain ⟨_, _, _, _, hlen, _, hidx⟩ :=
    runFold_spec net pageNet ce base pages ([], 0, ⟨[], []⟩) hInit
  have hpages : (runAudit net pageNet ce base pages).pages =
      (pages.foldl (stepPage net pageNet ce base) ([], 0, ⟨[], []⟩)).1 := rfl
  have hbroken : (runAudit net pageNet ce base pages).broken =
      ((pages.foldl (stepPage net pageNet ce base) ([], 0, ⟨[], []⟩)).1.map
        (fun page => (page.links.filter (fun l => !l.ok && !l.skipped)).map
          (mkBroken page.url))).flatten := rfl
  have h0 := hidx i hi e he
  have hz : ([] : List PageRecord).length + i = i := by simp
  rw [hz] at h0
  refine ⟨by rw [hpages]; exact h0, by rw [hpages, hlen]; simp, ?_⟩
  have hrecmem : (⟨pages[i], [syntheticLink pages[i] e]⟩ : PageRecord) ∈
      (pages.foldl (stepPage net pageNet ce base) ([], 0, ⟨[], []⟩)).1 := by
    exact List.getElem?_mem h0
  rw [hbroken, List.mem_flatten]
  refine ⟨([syntheticLink pages[i] e].filter (fun l => !l.ok && !l.skipped)).map
    (mkBroken pages[i]), List.mem_map.mpr ⟨⟨pages[i], [syntheticLink pages[i] e]⟩,
      hrecmem, rfl⟩, ?_⟩
  simp [syntheticLink, List.filter]

/-- C8 (instance): a run over one unreachable page records the synthetic
self-link and reports it broken. -/
theorem page_failure_synthetic_link_inst :
    (runAudit netOk pnC8 true "http://s.example/"
      ["http://s.example/dead"]).pages[0]? =
      some ⟨"http://s.example/dead",
        [syntheticLink "http://s.example/dead" "ECONNREFUSED"]⟩ ∧
    mkBroken "http://s.example/dead"
        (syntheticLink "http://s.example/dead" "ECONNREFUSED") ∈
      (runAudit netOk pnC8 true "http://s.example/"
        ["http://s.example/dead"]).broken := by
  obtain ⟨h1, _, h3⟩ := page_failure_synthetic_link netOk pnC8 true
    "http://s.example/" ["http://s.example/dead"] 0 (by decide) "ECONNREFUSED" rfl
  exact ⟨h1, h3⟩

/-- C10: the skipped-external counter equals the number of link record
occurrences whose attached CheckResult is flagged skipped, summed over
the audited pages — one increment per occurrence, not per distinct URL. -/
theorem skipped_counter_per_occurrence (net : Net) (pageNet : PageNet)
    (ce : Bool) (base : String) (pages : List String) :
    (runAudit net pageNet ce base pages).skippedExternal =
      ((runAudit net pageNet ce base pages).pages.map
        (fun rec => rec.links.countP (fun l => l.skipped))).sum := by
  have hInit : AuditInv pageNet ([], 0, (⟨[], []⟩ : CheckState)) := by
    refine ⟨?_, ?_, rfl⟩
    · intro rec hrec
      exact absurd hrec (List.not_mem_nil rec)
    · intro rec hrec
      exact absurd hrec (List.not_mem_nil rec)
  obtain ⟨hInv, _, _, _, _, _, _⟩ :=
    runFold_spec net pageNet ce base pages ([], 0, ⟨[], []⟩) hInit
  exact hInv.2.2

end LinkCheck
